import Mathlib

/-!
# Verification of the eagles-claude-config utility scripts

This file is a shallow embedding, in Lean 4, of the two Python scripts of the
repository:

* `src/hooks/doc-blocker.py` — the "Path Gate": reads a JSON hook payload from
  stdin, extracts `tool_input.file_path` (defaulting to the empty string),
  normalizes `\` to `/`, and exits 0 (allow) unless the path ends in `.md` and
  contains none of a fixed allow-list of substrings, in which case it exits 2.

* `src/skills/continuous-learning-v2/scripts/instinct-cli.py` — the "Instinct
  Store CLI": `status`, `export`, `import`, `evolve` over a JSON array of
  records `{id, pattern, confidence, category?}` stored in a single file.

Strings are modelled as `List Char`, Python floats as `ℚ` (every IEEE float is
a decimal-representable rational, and all the constants involved are exact),
and the process exit code / printed lines as explicit return values.
-/

namespace EaglesConfig

/-! ## Part 1: the Path Gate (`src/hooks/doc-blocker.py`)

The script is, in full:

```python
d = json.load(sys.stdin)
p = d.get('tool_input', {}).get('file_path', '').replace('\\', '/')
if not p.endswith('.md'):
    sys.exit(0)
allowed = ['/docs/', 'CLAUDE', 'README', 'CHANGELOG', 'SKILL', 'rules/', 'agents/', 'memory/']
for a in allowed:
    if a in p:
        sys.exit(0)
sys.exit(2)
```
-/

/-- The nested `tool_input` object of the hook payload; only the
`file_path` field is consulted (`d.get('tool_input', {}).get('file_path', '')`),
so the model records just that field, as optional. -/
structure ToolInput where
  file_path : Option (List Char)
deriving DecidableEq

/-- The hook payload read from stdin; only the `tool_input` field is
consulted, so the model records just that field, as optional. -/
structure HookInput where
  tool_input : Option ToolInput
deriving DecidableEq

/-- `d.get('tool_input', {}).get('file_path', '')`: extract the file path,
with absent `tool_input` or absent `file_path` defaulting to the empty
string. -/
def extractPath (d : HookInput) : List Char :=
  (d.tool_input.getD ⟨none⟩).file_path.getD []

/-- `p.replace('\\', '/')`: normalize directory separators. -/
def normalizePath (p : List Char) : List Char :=
  p.map fun c => if c = '\\' then '/' else c

/-- `allowed = ['/docs/', 'CLAUDE', 'README', 'CHANGELOG', 'SKILL', 'rules/', 'agents/', 'memory/']` -/
def allowedSubstrings : List (List Char) :=
  ["/docs/".toList, "CLAUDE".toList, "README".toList, "CHANGELOG".toList,
   "SKILL".toList, "rules/".toList, "agents/".toList, "memory/".toList]

/-- The gate's exit code as a function of the (already extracted, raw) path:
exit 0 unless the normalized path ends with `.md` and contains none of the
allow-list substrings, in which case exit 2.  `a in p` is Python substring
containment, i.e. `List.IsInfix`; `p.endswith('.md')` is `List.IsSuffix`. -/
def docBlockerExit (p : List Char) : Nat :=
  let np := normalizePath p
  if ¬ (".md".toList <:+ np) then 0
  else if allowedSubstrings.any (fun a => decide (a <:+: np)) then 0
  else 2

/-- The whole script: extract the path from the payload, then decide. -/
def docBlockerMain (d : HookInput) : Nat :=
  docBlockerExit (extractPath d)

/-! ## Part 2: the Instinct Store CLI (data model and operations)

`instincts.json` holds a JSON array of records
`{id: string, pattern: string, confidence: number, category?: string}`.
`confidence` is read with `i.get('confidence', 0)` in `status`/`evolve`,
with `inst.get('confidence', 0.5)` in `import_instincts`, and `category`
with `i.get('category', 'general')` in `evolve`; both are therefore
modelled as optional fields. -/
structure Instinct where
  id : List Char
  pattern : List Char
  confidence : Option ℚ
  category : Option (List Char)
deriving DecidableEq

/-- `i.get('confidence', 0)` — the confidence key used by `status` and by
`evolve`'s strength filter. -/
def confKey (i : Instinct) : ℚ :=
  i.confidence.getD 0

/-- `i.get('category', 'general')` — the grouping key used by `evolve`. -/
def catKey (i : Instinct) : List Char :=
  i.category.getD "general".toList

/-! ### import (`import_instincts`)

```python
existing_ids = {i['id'] for i in existing}
added = 0
for inst in new_instincts:
    if inst['id'] not in existing_ids:
        inst['confidence'] = max(0.3, inst.get('confidence', 0.5) - 0.1)
        existing.append(inst)
        added += 1
```
-/

/-- The mutation `inst['confidence'] = max(0.3, inst.get('confidence', 0.5) - 0.1)`
applied to an imported candidate. -/
def discountImport (i : Instinct) : Instinct :=
  { i with confidence := some (max (3/10) (i.confidence.getD (1/2) - 1/10)) }

/-- The `for inst in new_instincts` loop: the set `existing_ids` is fixed
before the loop and never extended, so membership is always tested against
the pre-import ids.  Returns the list of appended (discounted) records and
the `added` counter. -/
def importLoop (existingIds : List (List Char)) : List Instinct → List Instinct × Nat
  | [] => ([], 0)
  | inst :: rest =>
    if inst.id ∈ existingIds then importLoop existingIds rest
    else
      let r := importLoop existingIds rest
      (discountImport inst :: r.1, r.2 + 1)

/-- `import_instincts`: the post-import store (pre-import records followed by
the appended candidates, in order) and the reported `added` count. -/
def importInstincts (existing news : List Instinct) : List Instinct × Nat :=
  let r := importLoop (existing.map Instinct.id) news
  (existing ++ r.1, r.2)

/-! ## Claims C1, C2, C9 (the Path Gate) -/

/-- **C1.** For every input whose extracted file path, after separator
normalization, ends in `.md`, the Path Gate exits with code 0 if at least one
of the fixed allow-list substrings occurs anywhere in the (normalized) path,
and exits with code 2 if none of them occurs. -/
theorem C1_md_path_allowlist_decides (p : List Char)
    (h : ".md".toList <:+ normalizePath p) :
    ((∃ a ∈ allowedSubstrings, a <:+: normalizePath p) → docBlockerExit p = 0) ∧
    (¬ (∃ a ∈ allowedSubstrings, a <:+: normalizePath p) → docBlockerExit p = 2) := by
  constructor
  · intro hex
    simp only [docBlockerExit, h, not_true_eq_false, if_false]
    have : allowedSubstrings.any (fun a => decide (a <:+: normalizePath p)) = true := by
      rw [List.any_eq_true]
      obtain ⟨a, ha, hinf⟩ := hex
      exact ⟨a, ha, by simpa using hinf⟩
    simp [this]
  · intro hex
    simp only [docBlockerExit, h, not_true_eq_false, if_false]
    have : allowedSubstrings.any (fun a => decide (a <:+: normalizePath p)) = false := by
      rw [Bool.eq_false_iff]
      intro hc
      rw [List.any_eq_true] at hc
      obtain ⟨a, ha, hinf⟩ := hc
      exact hex ⟨a, ha, by simpa using hinf⟩
    simp [this]

/-- Witness for C1: `agents/a.md` contains `agents/` and is allowed;
`notes/a.md` contains no allow-list substring and is denied. -/
theorem C1_md_path_allowlist_decides_witness :
    docBlockerExit "agents/a.md".toList = 0 ∧ docBlockerExit "notes/a.md".toList = 2 :=
  ⟨(C1_md_path_allowlist_decides "agents/a.md".toList (by decide)).1
      ⟨"agents/".toList, by decide, by decide⟩,
   (C1_md_path_allowlist_decides "notes/a.md".toList (by decide)).2 (by decide)⟩

/-- Separator normalization maps `\` to `/` and leaves every other character
unchanged; since none of `.`, `m`, `d` is `/`, a path ends in `.md` after
normalization iff it did before. -/
theorem suffix_md_normalize (p : List Char) :
    (".md".toList <:+ normalizePath p) ↔ (".md".toList <:+ p) := by
  constructor
  · rintro ⟨t, ht⟩
    rw [normalizePath] at ht
    replace ht := ht.symm
    rw [List.map_eq_append_iff] at ht
    obtain ⟨l₁, l₂, hp, -, h₂⟩ := ht
    rw [show ".md".toList = ['.', 'm', 'd'] from rfl] at h₂
    rcases l₂ with _ | ⟨c₁, l₂⟩
    · simp at h₂
    rcases l₂ with _ | ⟨c₂, l₂⟩
    · simp at h₂
    rcases l₂ with _ | ⟨c₃, l₂⟩
    · simp at h₂
    rcases l₂ with _ | ⟨c₄, l₂⟩
    swap
    · simp at h₂
    simp only [List.map_cons, List.map_nil, List.cons.injEq, and_true] at h₂
    obtain ⟨e₁, e₂, e₃⟩ := h₂
    have hc₁ : c₁ = '.' := by
      by_cases hb : c₁ = '\\'
      · rw [if_pos hb] at e₁; exact absurd e₁ (by decide)
      · rwa [if_neg hb] at e₁
    have hc₂ : c₂ = 'm' := by
      by_cases hb : c₂ = '\\'
      · rw [if_pos hb] at e₂; exact absurd e₂ (by decide)
      · rwa [if_neg hb] at e₂
    have hc₃ : c₃ = 'd' := by
      by_cases hb : c₃ = '\\'
      · rw [if_pos hb] at e₃; exact absurd e₃ (by decide)
      · rwa [if_neg hb] at e₃
    exact ⟨l₁, by rw [hp, hc₁, hc₂, hc₃]; rfl⟩
  · rintro ⟨t, ht⟩
    refine ⟨normalizePath t, ?_⟩
    rw [← ht, normalizePath, normalizePath, List.map_append]
    rfl

/-- Shared helper: a path that does not end in `.md` always exits 0. -/
theorem nonMd_exit_zero (p : List Char)
    (h : ¬ (".md".toList <:+ p)) : docBlockerExit p = 0 := by
  have hn : ¬ (".md".toList <:+ normalizePath p) := fun hc =>
    h ((suffix_md_normalize p).mp hc)
  simp only [docBlockerExit]
  rw [if_pos hn]

/-- **C2.** For every input whose extracted file path does not end in `.md`,
the Path Gate exits with code 0 (allow), regardless of allow-list content. -/
theorem C2_non_md_always_allowed (p : List Char)
    (h : ¬ (".md".toList <:+ p)) : docBlockerExit p = 0 :=
  nonMd_exit_zero p h

/-- Witness for C2: a Python file (even one under no allow-listed directory)
is allowed. -/
theorem C2_non_md_always_allowed_witness : docBlockerExit "src/main.py".toList = 0 :=
  C2_non_md_always_allowed "src/main.py".toList (by decide)

/-- **C9.** For every syntactically valid input in which `tool_input` or its
`file_path` field is absent, the gate treats the path as the empty string and
exits 0 (allow); the request is never denied. -/
theorem C9_missing_fields_allow (d : HookInput)
    (h : d.tool_input = none ∨ ∃ t, d.tool_input = some t ∧ t.file_path = none) :
    extractPath d = [] ∧ docBlockerMain d = 0 := by
  have hp : extractPath d = [] := by
    rcases h with h | ⟨t, ht, hf⟩
    · simp [extractPath, h]
    · simp [extractPath, ht, hf]
  refine ⟨hp, ?_⟩
  rw [docBlockerMain, hp]
  exact nonMd_exit_zero [] (by decide)

/-- Witness for C9: the payload `{}` (no `tool_input` at all) is allowed. -/
theorem C9_missing_fields_allow_witness :
    extractPath ⟨none⟩ = [] ∧ docBlockerMain ⟨none⟩ = 0 :=
  C9_missing_fields_allow ⟨none⟩ (Or.inl rfl)

/-! ### Rendering helpers shared by `status` and `evolve` -/

/-- The character for a single decimal digit (digits ≥ 9 all map to `'9'`;
only values `< 10` are ever produced by the code below). -/
def digitC (d : Nat) : Char :=
  match d with
  | 0 => '0' | 1 => '1' | 2 => '2' | 3 => '3' | 4 => '4'
  | 5 => '5' | 6 => '6' | 7 => '7' | 8 => '8' | _ => '9'

/-- Decimal digits of `n`, most significant first, with explicit fuel so the
definition is structural (fuel `n` always suffices since `n / 10 < n`). -/
def natCharsAux : Nat → Nat → List Char
  | 0, _ => []
  | fuel + 1, n => if n = 0 then [] else natCharsAux fuel (n / 10) ++ [digitC (n % 10)]

/-- `str(n)` for a natural number: its decimal representation. -/
def natChars (n : Nat) : List Char :=
  if n = 0 then ['0'] else natCharsAux n n

/-- Python `int(x)` on a rational: truncation toward zero (floor for
non-negative values, ceiling for negative ones). -/
def pyInt (q : ℚ) : ℤ :=
  if 0 ≤ q then q.floor else -((-q).floor)

/-- `f'{x:.1f}'`: format with one decimal digit, rounding half to even
(IEEE default rounding, which is what CPython's float formatting performs;
on the exact rational value). -/
def rhe (x : ℚ) : ℤ :=
  if x - x.floor = 1/2 then (if x.floor % 2 = 0 then x.floor else x.floor + 1)
  else (x + 1/2).floor

/-- `f'{q:.1f}'` rendered as characters (sign, integer part, one decimal). -/
def fmtConf1 (q : ℚ) : List Char :=
  let n : ℕ := (rhe (|q| * 10)).toNat
  (if q < 0 then ['-'] else []) ++ natChars (n / 10) ++ '.' :: [digitC (n % 10)]

/-! ### status

```python
print(f'Total instincts: {len(instincts)}')
for i in sorted(instincts, key=lambda x: x.get('confidence', 0), reverse=True):
    conf = i.get('confidence', 0)
    bar = '#' * int(conf * 10)
    print(f'  [{conf:.1f}] {bar:10s} {i["pattern"][:60]}')
```
-/

/-- `'#' * int(conf * 10)`: the filled-segment count of the visual bar
(Python's `*` with a negative count yields the empty string, so negative
truncations clamp to zero, which `Int.toNat` models). -/
def barFill (conf : ℚ) : ℕ :=
  (pyInt (conf * 10)).toNat

/-- The bar string `'#' * int(conf * 10)`. -/
def statusBar (conf : ℚ) : List Char :=
  List.replicate (barFill conf) '#'

/-- `f'{bar:10s}'`: left-justify in a field of minimum width 10 (a longer
string is not truncated). -/
def padTo10 (b : List Char) : List Char :=
  b ++ List.replicate (10 - b.length) ' '

/-- One line of `status` output for record `i`. -/
def statusLine (i : Instinct) : List Char :=
  "  [".toList ++ fmtConf1 (confKey i) ++ "] ".toList ++
    padTo10 (statusBar (confKey i)) ++ ' ' :: i.pattern.take 60

/-- `sorted(instincts, key=lambda x: x.get('confidence', 0), reverse=True)`:
a stable sort into non-increasing confidence order (CPython's `sorted` is
stable also with `reverse=True`). -/
def statusSort (l : List Instinct) : List Instinct :=
  l.mergeSort (fun a b => decide (confKey b ≤ confKey a))

/-- The message printed for an empty store. -/
def noInstinctsMsg : List Char :=
  "No instincts captured yet. Use sessions to build patterns.".toList

/-- The full list of lines printed by `status`. -/
def statusOutput (l : List Instinct) : List (List Char) :=
  if l = [] then [noInstinctsMsg]
  else ("Total instincts: ".toList ++ natChars l.length) :: (statusSort l).map statusLine

/-! ### evolve

```python
strong = [i for i in instincts if i.get('confidence', 0) >= 0.7]
categories = {}
for i in strong:
    cat = i.get('category', 'general')
    categories.setdefault(cat, []).append(i)
for cat, items in categories.items():
    if len(items) >= 3:
        print(f'\nCluster ready for evolution: {cat} ({len(items)} instincts)')
        for item in items:
            print(f'  [{item["confidence"]:.1f}] {item["pattern"][:50]}')
        print(f'  -> Recommend creating skill: {cat}-patterns.md')
```
-/

/-- `[i for i in instincts if i.get('confidence', 0) >= 0.7]` -/
def strongFilter (l : List Instinct) : List Instinct :=
  l.filter fun i => decide ((7/10 : ℚ) ≤ confKey i)

/-- First-occurrence deduplication with an accumulator of already-seen keys:
the iteration order of a Python dict's keys is the order in which they were
first inserted. -/
def dedupAux (seen : List (List Char)) : List (List Char) → List (List Char)
  | [] => []
  | c :: rest => if c ∈ seen then dedupAux seen rest else c :: dedupAux (c :: seen) rest

/-- The distinct keys of the `categories` dict, in insertion order. -/
def dedupKeepFirst (l : List (List Char)) : List (List Char) :=
  dedupAux [] l

/-- The `(cat, items)` pairs of the `categories` dict (insertion-ordered
keys, each with the strong records of that category in store order),
restricted to the groups of size at least 3 that `evolve` reports.  The
items of key `c` are the strong records whose category key is `c`, in store
order, exactly as the `setdefault(cat, []).append(i)` loop builds them. -/
def evolveClusters (l : List Instinct) : List (List Char × List Instinct) :=
  (dedupKeepFirst ((strongFilter l).map catKey)).filterMap fun c =>
    if 3 ≤ ((strongFilter l).filter fun i => decide (catKey i = c)).length
    then some (c, (strongFilter l).filter fun i => decide (catKey i = c))
    else none

/-- The lines printed for one qualifying cluster: the header (which starts
with the `\n` of the f-string), one member line per record with the pattern
truncated to 50 characters, and the recommendation naming
`<category>-patterns.md`. -/
def clusterLines (c : List Char) (items : List Instinct) : List (List Char) :=
  ('\n' :: ("Cluster ready for evolution: ".toList ++ c ++ " (".toList ++
      natChars items.length ++ " instincts)".toList)) ::
  (items.map fun it => "  [".toList ++ fmtConf1 (confKey it) ++ "] ".toList ++
      it.pattern.take 50) ++
  [("  -> Recommend creating skill: ".toList ++ c ++ "-patterns.md".toList)]

/-- Everything `evolve` prints. -/
def evolveOutput (l : List Instinct) : List (List Char) :=
  ((evolveClusters l).map fun ci => clusterLines ci.1 ci.2).flatten

/-- `evolve` as a store transformer: it reads the store and prints; it never
calls `save_instincts`, so the store is returned unchanged. -/
def evolveRun (store : List Instinct) : List Instinct × List (List Char) :=
  (store, evolveOutput store)

/-! ## Claims C3, C4, C10 (import) -/

/-- The import loop appends exactly the candidates whose id is not among the
fixed pre-loop id set, each discounted, in their original order. -/
theorem importLoop_eq_filter (ids : List (List Char)) (l : List Instinct) :
    importLoop ids l =
      ((l.filter (fun c => decide (c.id ∉ ids))).map discountImport,
       (l.filter (fun c => decide (c.id ∉ ids))).length) := by
  induction l with
  | nil => rfl
  | cons x xs ih =>
    by_cases h : x.id ∈ ids
    · simp [importLoop, h, ih, List.filter_cons]
    · simp [importLoop, h, ih, List.filter_cons]

/-- **C3.** Import appends every candidate whose `id` is not among the ids of
the pre-import store, in order, with its `confidence` field set to
`max(0.3, c - 0.1)` where `c` is the candidate's own stated confidence, or
`0.5` when the candidate has no confidence field. -/
theorem C3_import_appends_discounted (existing news : List Instinct) :
    (importInstincts existing news).1 =
      existing ++
        (news.filter (fun c => decide (c.id ∉ existing.map Instinct.id))).map discountImport ∧
    ∀ c : Instinct,
      (discountImport c).confidence =
        some (max (3/10) (c.confidence.getD (1/2) - 1/10)) := by
  refine ⟨?_, fun c => rfl⟩
  simp [importInstincts, importLoop_eq_filter]

/-- **C4.** When every candidate's `id` is already present in the store,
the import appends nothing and reports zero additions; the persisted store is
exactly the pre-import sequence of records (no update or merge of any
existing record's fields). -/
theorem C4_import_all_present_noop (existing news : List Instinct)
    (h : ∀ c ∈ news, c.id ∈ existing.map Instinct.id) :
    (importInstincts existing news).1 = existing ∧
    (importInstincts existing news).2 = 0 := by
  have hfil : news.filter (fun c => decide (c.id ∉ existing.map Instinct.id)) = [] := by
    rw [List.filter_eq_nil_iff]
    intro c hc
    simpa using h c hc
  rw [importInstincts]
  simp only [importLoop_eq_filter, hfil]
  simp

/-- Witness for C4: importing a record whose id `"a"` is already in the store
changes nothing and reports 0 additions. -/
theorem C4_import_all_present_noop_witness :
    (importInstincts [⟨"a".toList, "p".toList, some (9/10), none⟩]
        [⟨"a".toList, "q".toList, some (2/10), none⟩]).1 =
      [⟨"a".toList, "p".toList, some (9/10), none⟩] ∧
    (importInstincts [⟨"a".toList, "p".toList, some (9/10), none⟩]
        [⟨"a".toList, "q".toList, some (2/10), none⟩]).2 = 0 :=
  C4_import_all_present_noop _ _ (by decide)

/-- **C10.** The id set consulted by import is computed once from the
pre-import store and is not extended as candidates are appended: an import
file with two candidates sharing an id that is fresh appends both of them,
and id-uniqueness of the store is not preserved. -/
theorem C10_duplicate_fresh_ids_both_added (existing : List Instinct)
    (c₁ c₂ : Instinct) (hid : c₁.id = c₂.id)
    (hfresh : c₁.id ∉ existing.map Instinct.id) :
    (importInstincts existing [c₁, c₂]).1 =
      existing ++ [discountImport c₁, discountImport c₂] ∧
    (importInstincts existing [c₁, c₂]).2 = 2 ∧
    ¬ ((importInstincts existing [c₁, c₂]).1.map Instinct.id).Nodup := by
  have h₂ : c₂.id ∉ existing.map Instinct.id := hid ▸ hfresh
  have hres : (importInstincts existing [c₁, c₂]).1 =
      existing ++ [discountImport c₁, discountImport c₂] := by
    simp [importInstincts, importLoop, hfresh, h₂]
  refine ⟨hres, by simp [importInstincts, importLoop, hfresh, h₂], ?_⟩
  intro hnd
  rw [hres, List.map_append] at hnd
  have htail := hnd.of_append_right
  have : (discountImport c₁).id ≠ (discountImport c₂).id := by
    have := List.nodup_cons.mp htail
    simpa using this.1
  exact this (by simpa [discountImport] using hid)

/-- Witness for C10: importing two fresh candidates that share id `"x"` into
a one-record store appends both; the resulting id list `["a","x","x"]` has a
duplicate. -/
theorem C10_duplicate_fresh_ids_both_added_witness :
    (importInstincts [⟨"a".toList, "p".toList, some (9/10), none⟩]
        [⟨"x".toList, "q".toList, some (8/10), none⟩,
         ⟨"x".toList, "r".toList, none, none⟩]).1 =
      [⟨"a".toList, "p".toList, some (9/10), none⟩,
       discountImport ⟨"x".toList, "q".toList, some (8/10), none⟩,
       discountImport ⟨"x".toList, "r".toList, none, none⟩] ∧
    ¬ ((importInstincts [⟨"a".toList, "p".toList, some (9/10), none⟩]
        [⟨"x".toList, "q".toList, some (8/10), none⟩,
         ⟨"x".toList, "r".toList, none, none⟩]).1.map Instinct.id).Nodup :=
  ⟨(C10_duplicate_fresh_ids_both_added [⟨"a".toList, "p".toList, some (9/10), none⟩]
      ⟨"x".toList, "q".toList, some (8/10), none⟩ ⟨"x".toList, "r".toList, none, none⟩
      rfl (by decide)).1,
   (C10_duplicate_fresh_ids_both_added [⟨"a".toList, "p".toList, some (9/10), none⟩]
      ⟨"x".toList, "q".toList, some (8/10), none⟩ ⟨"x".toList, "r".toList, none, none⟩
      rfl (by decide)).2.2⟩

/-! ## Claim C5 (status: one line per record, stable descending order) -/

/-- Stability of the `status` sort, stated as preservation of the per-key
subsequences: for every confidence value `c`, the records of confidence `c`
appear in the sorted output in exactly their original relative order. -/
theorem statusSort_stable_filter (l : List Instinct) (c : ℚ) :
    (statusSort l).filter (fun i => decide (confKey i = c)) =
      l.filter (fun i => decide (confKey i = c)) := by
  have htrans : ∀ a b c' : Instinct,
      (fun a b => decide (confKey b ≤ confKey a)) a b = true →
      (fun a b => decide (confKey b ≤ confKey a)) b c' = true →
      (fun a b => decide (confKey b ≤ confKey a)) a c' = true := by
    intro a b c' h1 h2
    simp only [decide_eq_true_eq] at *
    exact le_trans h2 h1
  have htot : ∀ a b : Instinct,
      ((fun a b => decide (confKey b ≤ confKey a)) a b ||
       (fun a b => decide (confKey b ≤ confKey a)) b a) = true := by
    intro a b
    simp only [Bool.or_eq_true, decide_eq_true_eq]
    exact le_total (confKey b) (confKey a)
  have hpair : (l.filter (fun i => decide (confKey i = c))).Pairwise
      (fun a b => (fun a b => decide (confKey b ≤ confKey a)) a b = true) := by
    rw [List.pairwise_iff_forall_sublist]
    intro a b hs
    have ha' := (List.mem_filter.mp (hs.subset (List.mem_cons_self a [b]))).2
    have hb' := (List.mem_filter.mp (hs.subset (show b ∈ [a, b] by simp))).2
    simp only [decide_eq_true_eq] at ha' hb' ⊢
    rw [ha', hb']
  have hsub : (l.filter (fun i => decide (confKey i = c))).Sublist (statusSort l) :=
    List.sublist_mergeSort htrans htot hpair (List.filter_sublist l)
  have hself : (l.filter (fun i => decide (confKey i = c))).filter
      (fun i => decide (confKey i = c)) = l.filter (fun i => decide (confKey i = c)) :=
    List.filter_eq_self.mpr fun a ha => (List.mem_filter.mp ha).2
  have hsub2 : (l.filter (fun i => decide (confKey i = c))).Sublist
      ((statusSort l).filter (fun i => decide (confKey i = c))) := by
    rw [← hself]
    exact hsub.filter _
  have hperm : List.Perm ((statusSort l).filter (fun i => decide (confKey i = c)))
      (l.filter (fun i => decide (confKey i = c))) :=
    (List.mergeSort_perm l _).filter _
  exact (hsub2.eq_of_length hperm.length_eq.symm).symm

/-- **C5.** `status` on an empty store prints only the no-instincts message;
on a non-empty store it prints the total count and then exactly one line per
record (the printed list is a permutation of the store mapped through the
line renderer), in non-increasing confidence order, and records of equal
confidence appear in their original relative store order. -/
theorem C5_status_lines (l : List Instinct) :
    (l = [] → statusOutput l = [noInstinctsMsg]) ∧
    (l ≠ [] → statusOutput l =
      ("Total instincts: ".toList ++ natChars l.length) :: (statusSort l).map statusLine) ∧
    List.Perm (statusSort l) l ∧
    (statusSort l).Pairwise (fun a b => confKey b ≤ confKey a) ∧
    ∀ c : ℚ, (statusSort l).filter (fun i => decide (confKey i = c)) =
      l.filter (fun i => decide (confKey i = c)) := by
  refine ⟨fun h => by rw [statusOutput, if_pos h],
          fun h => by rw [statusOutput, if_neg h],
          List.mergeSort_perm l _, ?_, fun c => statusSort_stable_filter l c⟩
  have := @List.sorted_mergeSort Instinct
    (fun a b : Instinct => decide (confKey b ≤ confKey a))
    (by intro a b c h1 h2
        simp only [decide_eq_true_eq] at *
        exact le_trans h2 h1)
    (by intro a b
        simp only [Bool.or_eq_true, decide_eq_true_eq]
        exact le_total (confKey b) (confKey a)) l
  exact this.imp fun h => by simpa using h

/-- Witness for C5: the empty store prints only the message; a three-record
store with a confidence tie (ids `"a"`, `"c"` both at 0.5) keeps the tied
records in store order after the 0.9 record. -/
theorem C5_status_lines_witness :
    statusOutput [] = [noInstinctsMsg] ∧
    statusOutput
        [⟨"a".toList, "p".toList, some (5/10), none⟩,
         ⟨"b".toList, "q".toList, some (9/10), none⟩,
         ⟨"c".toList, "r".toList, some (5/10), none⟩] =
      ("Total instincts: ".toList ++ natChars 3) ::
        (statusSort
          [⟨"a".toList, "p".toList, some (5/10), none⟩,
           ⟨"b".toList, "q".toList, some (9/10), none⟩,
           ⟨"c".toList, "r".toList, some (5/10), none⟩]).map statusLine :=
  ⟨(C5_status_lines []).1 rfl,
   (C5_status_lines _).2.1 (List.cons_ne_nil _ _)⟩

/-! ## Claim C6 (status bar geometry) — corrected

The claim asserts, for *every* confidence value a record may hold, that the
bar has `floor(confidence * 10)` filled segments out of 10 total.  The code
computes `'#' * int(conf * 10)` and pads with `f'{bar:10s}'`, which only
*left-justifies to a minimum width* of 10: a confidence above 1.0 yields more
than 10 segments, and a negative confidence yields `int` truncation toward
zero (and clamping at the empty string), not `floor`.  The claim holds on the
conventional range `0 ≤ confidence ≤ 1`. -/

/-- Batteries' computable `Rat.floor` agrees with the `FloorRing` floor. -/
theorem ratFloor_eq_intFloor (q : ℚ) : q.floor = ⌊q⌋ := by
  rw [Rat.floor_def', Rat.floor_def]

/-- On non-negative arguments Python's `int()` is the floor. -/
theorem pyInt_eq_floor (q : ℚ) (h : 0 ≤ q) : pyInt q = ⌊q⌋ := by
  rw [pyInt, if_pos h, ratFloor_eq_intFloor]

/-- Counterexample to C6 as stated: a record with confidence 1.5 renders a
bar of 15 `#` segments — the whole rendered field has 15 characters, not
10 — and a record with confidence -0.5 has 0 filled segments while
`floor(-0.5 * 10) = -5`. -/
theorem C6_bar_counterexample :
    (barFill (confKey ⟨"i".toList, "p".toList, some (3/2), none⟩) = 15 ∧
      (padTo10 (statusBar (confKey ⟨"i".toList, "p".toList, some (3/2), none⟩))).length = 15 ∧
      (15 : ℕ) ≠ 10) ∧
    (barFill (confKey ⟨"j".toList, "q".toList, some (-(1/2)), none⟩) = 0 ∧
      ⌊confKey ⟨"j".toList, "q".toList, some (-(1/2)), none⟩ * 10⌋ = -5) := by
  have e1 : confKey ⟨"i".toList, "p".toList, some (3/2), none⟩ = 3/2 := rfl
  have e2 : confKey ⟨"j".toList, "q".toList, some (-(1/2)), none⟩ = -(1/2) := rfl
  have hb : barFill (3/2) = 15 := by
    rw [barFill, show ((3:ℚ)/2) * 10 = 15 by norm_num,
      pyInt_eq_floor _ (by norm_num), show ⌊(15:ℚ)⌋ = 15 by norm_num]
    rfl
  have hneg : barFill (-(1/2)) = 0 := by
    rw [barFill, show (-(1/2) : ℚ) * 10 = -5 by norm_num, pyInt,
      if_neg (by norm_num), show (-(-5 : ℚ)) = 5 by norm_num,
      ratFloor_eq_intFloor, show ⌊(5:ℚ)⌋ = 5 by norm_num]
    rfl
  refine ⟨⟨by rw [e1, hb], ?_, by omega⟩, ⟨by rw [e2, hneg], ?_⟩⟩
  · rw [e1]
    simp only [padTo10, statusBar, List.length_append, List.length_replicate, hb]
  · rw [e2, show (-(1/2) : ℚ) * 10 = -5 by norm_num]
    norm_num

/-- **C6 (amended).** For every record the pattern text on its status line is
truncated to at most 60 characters; and whenever the record's confidence lies
in the conventional range `[0, 1]`, the bar's filled-segment count equals
`floor(confidence * 10)` and the bar is rendered in a field of exactly 10
characters. -/
theorem C6_bar_geometry_amended (i : Instinct) :
    (i.pattern.take 60).length ≤ 60 ∧
    (0 ≤ confKey i → confKey i ≤ 1 →
      (barFill (confKey i) : ℤ) = ⌊confKey i * 10⌋ ∧
      (statusBar (confKey i)).length = barFill (confKey i) ∧
      (padTo10 (statusBar (confKey i))).length = 10) := by
  refine ⟨by simp only [List.length_take]; omega, fun h0 h1 => ?_⟩
  have hnn : (0 : ℚ) ≤ confKey i * 10 := by positivity
  have hfl : (pyInt (confKey i * 10)) = ⌊confKey i * 10⌋ := by
    rw [pyInt, if_pos hnn, Rat.floor_def', Rat.floor_def]
  have hfl0 : 0 ≤ ⌊confKey i * 10⌋ := Int.floor_nonneg.mpr hnn
  have hub : ⌊confKey i * 10⌋ ≤ 10 := by
    have : confKey i * 10 ≤ 10 := by nlinarith
    calc ⌊confKey i * 10⌋ ≤ ⌊(10 : ℚ)⌋ := Int.floor_le_floor this
    _ = 10 := by norm_num
  have hbf : (barFill (confKey i) : ℤ) = ⌊confKey i * 10⌋ := by
    rw [barFill, hfl, Int.toNat_of_nonneg hfl0]
  refine ⟨hbf, by simp [statusBar], ?_⟩
  have hble : barFill (confKey i) ≤ 10 := by
    have := hbf ▸ hub
    exact_mod_cast this
  simp only [padTo10, statusBar, List.length_append, List.length_replicate]
  omega

/-- Witness for the amended C6 at confidence 0.7: the pattern truncation bound
holds, and there are 7 filled segments in a 10-character field. -/
theorem C6_bar_geometry_amended_witness :
    ((⟨"i".toList, "p".toList, some (7/10), none⟩ : Instinct).pattern.take 60).length ≤ 60 ∧
    ((barFill (confKey ⟨"i".toList, "p".toList, some (7/10), none⟩) : ℤ) =
      ⌊confKey ⟨"i".toList, "p".toList, some (7/10), none⟩ * 10⌋ ∧
    (statusBar (confKey ⟨"i".toList, "p".toList, some (7/10), none⟩)).length =
      barFill (confKey ⟨"i".toList, "p".toList, some (7/10), none⟩) ∧
    (padTo10 (statusBar (confKey ⟨"i".toList, "p".toList, some (7/10), none⟩))).length = 10) :=
  ⟨(C6_bar_geometry_amended ⟨"i".toList, "p".toList, some (7/10), none⟩).1,
   (C6_bar_geometry_amended ⟨"i".toList, "p".toList, some (7/10), none⟩).2
     (by norm_num [confKey]) (by norm_num [confKey])⟩

/-! ## Claim C7 (evolve reports exactly the size-3 strong clusters) -/

/-- Characterization of insertion-order deduplication: membership is
membership in the input and not in the `seen` accumulator. -/
theorem mem_dedupAux : ∀ (l seen : List (List Char)) (x : List Char),
    x ∈ dedupAux seen l ↔ x ∈ l ∧ x ∉ seen := by
  intro l
  induction l with
  | nil => intro seen x; simp [dedupAux]
  | cons c rest ih =>
    intro seen x
    by_cases hc : c ∈ seen
    · rw [dedupAux, if_pos hc, ih]
      constructor
      · rintro ⟨h1, h2⟩
        exact ⟨List.mem_cons_of_mem _ h1, h2⟩
      · rintro ⟨h1, h2⟩
        rcases List.mem_cons.mp h1 with rfl | h1
        · exact absurd hc h2
        · exact ⟨h1, h2⟩
    · rw [dedupAux, if_neg hc, List.mem_cons, ih]
      constructor
      · rintro (rfl | ⟨h1, h2⟩)
        · exact ⟨List.mem_cons_self _ _, hc⟩
        · exact ⟨List.mem_cons_of_mem _ h1, fun hx => h2 (List.mem_cons_of_mem _ hx)⟩
      · rintro ⟨h1, h2⟩
        rcases List.mem_cons.mp h1 with rfl | h1
        · exact Or.inl rfl
        · by_cases hxc : x = c
          · exact Or.inl hxc
          · refine Or.inr ⟨h1, fun hx => ?_⟩
            rcases List.mem_cons.mp hx with h | h
            · exact hxc h
            · exact h2 h

/-- Insertion-order deduplication yields distinct keys. -/
theorem nodup_dedupAux : ∀ (l seen : List (List Char)), (dedupAux seen l).Nodup := by
  intro l
  induction l with
  | nil => intro seen; simp [dedupAux]
  | cons c rest ih =>
    intro seen
    by_cases hc : c ∈ seen
    · rw [dedupAux, if_pos hc]
      exact ih seen
    · rw [dedupAux, if_neg hc, List.nodup_cons]
      refine ⟨fun hmem => ?_, ih _⟩
      exact ((mem_dedupAux rest (c :: seen) c).mp hmem).2 (List.mem_cons_self _ _)

/-- The strong records of category `c` are the records that are both strong
and of category `c`, in store order. -/
theorem strong_cat_filter (l : List Instinct) (c : List Char) :
    (strongFilter l).filter (fun i => decide (catKey i = c)) =
      l.filter (fun i => decide ((7/10 : ℚ) ≤ confKey i ∧ catKey i = c)) := by
  rw [strongFilter, List.filter_filter]
  apply List.filter_congr
  intro i _
  simp only [Bool.decide_and]
  rw [Bool.and_comm]

/-- Membership in the cluster report: the key occurs among the strong
records' categories and its group has at least 3 members. -/
theorem mem_evolveClusters (l : List Instinct) (c : List Char) (items : List Instinct) :
    (c, items) ∈ evolveClusters l ↔
      c ∈ (strongFilter l).map catKey ∧
      items = (strongFilter l).filter (fun i => decide (catKey i = c)) ∧
      3 ≤ items.length := by
  rw [evolveClusters, List.mem_filterMap]
  constructor
  · rintro ⟨a, ha, hf⟩
    split at hf
    · rename_i hlen
      obtain ⟨rfl, rfl⟩ : a = c ∧
          (strongFilter l).filter (fun i => decide (catKey i = a)) = items := by
        have := Option.some.inj hf
        exact ⟨congrArg Prod.fst this, congrArg Prod.snd this⟩
      refine ⟨((mem_dedupAux _ _ _).mp ha).1, rfl, hlen⟩
    · exact absurd hf (by simp)
  · rintro ⟨hc, hitems, hlen⟩
    refine ⟨c, (mem_dedupAux _ _ _).mpr ⟨hc, by simp⟩, ?_⟩
    rw [if_pos (hitems ▸ hlen), ← hitems]

/-- The keys of an `if`-guarded `filterMap` over keys are the keys passing
the guard. -/
theorem map_fst_filterMap_guard (ks : List (List Char)) (P : List Char → Prop)
    [DecidablePred P] (g : List Char → List Instinct) :
    ((ks.filterMap fun c => if P c then some (c, g c) else none).map Prod.fst) =
      ks.filter fun c => decide (P c) := by
  induction ks with
  | nil => rfl
  | cons a ks ih =>
    by_cases h : P a
    · simp [List.filterMap_cons, List.filter_cons, h, ih]
    · simp [List.filterMap_cons, List.filter_cons, h, ih]

/-- **C7.** `evolve` reports a cluster exactly for those categories having at
least 3 records of confidence ≥ 0.7 (an absent category counting as
`general`): one cluster per such category (keys are distinct), whose items
are precisely the strong records of the category in store order; the output
is the concatenation of the per-cluster line blocks, and the store is
returned unchanged (`evolve` never writes the store file). -/
theorem C7_evolve_clusters (l : List Instinct) :
    (evolveRun l).1 = l ∧
    (evolveRun l).2 = ((evolveClusters l).map fun ci => clusterLines ci.1 ci.2).flatten ∧
    (∀ c : List Char,
      (∃ items, (c, items) ∈ evolveClusters l) ↔
        3 ≤ (l.filter (fun i => decide ((7/10 : ℚ) ≤ confKey i ∧ catKey i = c))).length) ∧
    ((evolveClusters l).map Prod.fst).Nodup ∧
    (∀ c items, (c, items) ∈ evolveClusters l →
      items = (strongFilter l).filter (fun i => decide (catKey i = c)) ∧
      3 ≤ items.length) := by
  refine ⟨rfl, rfl, ?_, ?_, ?_⟩
  · intro c
    constructor
    · rintro ⟨items, hmem⟩
      obtain ⟨-, hitems, hlen⟩ := (mem_evolveClusters l c items).mp hmem
      rw [hitems, strong_cat_filter] at hlen
      exact hlen
    · intro hlen
      refine ⟨(strongFilter l).filter (fun i => decide (catKey i = c)), ?_⟩
      rw [mem_evolveClusters]
      have hlen' : 3 ≤ ((strongFilter l).filter
          (fun i => decide (catKey i = c))).length := by
        rw [strong_cat_filter]
        exact hlen
      refine ⟨?_, rfl, hlen'⟩
      have hpos : 0 < ((strongFilter l).filter
          (fun i => decide (catKey i = c))).length := by omega
      obtain ⟨i, hi⟩ := List.exists_mem_of_ne_nil _
        (List.length_pos.mp hpos)
      have hi' := List.mem_filter.mp hi
      have : catKey i = c := by simpa using hi'.2
      exact this ▸ List.mem_map_of_mem catKey hi'.1
  · rw [evolveClusters, map_fst_filterMap_guard]
    exact (nodup_dedupAux _ _).filter _
  · intro c items hmem
    obtain ⟨-, hitems, hlen⟩ := (mem_evolveClusters l c items).mp hmem
    exact ⟨hitems, hlen⟩

/-- Witness for C7 at the spec's own example: three strong `testing` records
and one strong `other` record; `testing` forms a cluster, `other` does not,
and the store is unchanged. -/
theorem C7_evolve_clusters_witness :
    (∃ items, ("testing".toList, items) ∈ evolveClusters
      [⟨"a".toList, "p".toList, some 1, some "testing".toList⟩,
       ⟨"b".toList, "q".toList, some 1, some "testing".toList⟩,
       ⟨"c".toList, "r".toList, some 1, some "testing".toList⟩,
       ⟨"d".toList, "s".toList, some 1, some "other".toList⟩]) ∧
    ¬ (∃ items, ("other".toList, items) ∈ evolveClusters
      [⟨"a".toList, "p".toList, some 1, some "testing".toList⟩,
       ⟨"b".toList, "q".toList, some 1, some "testing".toList⟩,
       ⟨"c".toList, "r".toList, some 1, some "testing".toList⟩,
       ⟨"d".toList, "s".toList, some 1, some "other".toList⟩]) ∧
    (evolveRun
      [⟨"a".toList, "p".toList, some 1, some "testing".toList⟩,
       ⟨"b".toList, "q".toList, some 1, some "testing".toList⟩,
       ⟨"c".toList, "r".toList, some 1, some "testing".toList⟩,
       ⟨"d".toList, "s".toList, some 1, some "other".toList⟩]).1 =
      [⟨"a".toList, "p".toList, some 1, some "testing".toList⟩,
       ⟨"b".toList, "q".toList, some 1, some "testing".toList⟩,
       ⟨"c".toList, "r".toList, some 1, some "testing".toList⟩,
       ⟨"d".toList, "s".toList, some 1, some "other".toList⟩] := by
  refine ⟨((C7_evolve_clusters _).2.2.1 _).mpr ?_,
          fun hex => ?_,
          (C7_evolve_clusters _).1⟩
  · norm_num [List.filter_cons, confKey, catKey]
  · have h3 := ((C7_evolve_clusters _).2.2.1 _).mp hex
    revert h3
    norm_num [List.filter_cons, confKey, catKey]
    simp +decide

/-! ## Claim C8 (save/load round trip)

`save_instincts` writes `json.dumps(instincts, indent=2, ensure_ascii=False)`
and `load_instincts` reads the file back with `json.loads`.  The embedding
models JSON values as a mutual inductive (`Json` / `JsonList` / `JsonObj`),
the serializer as a pretty-printer with two-space indentation per nesting
level and item/key separators `',\n'` / `': '` (CPython's layout for
`indent=2`), escaping `"`­, `\`, and control characters (and nothing else,
as `ensure_ascii=False` leaves non-ASCII text alone), and the deserializer
as a recursive-descent JSON reader with an explicit fuel argument (fuel
`length + 1` always suffices, proved below).

Numbers: every value a CPython float can hold is a decimal-representable
rational, and `repr(float)` prints exactly such a decimal, so numbers are
modelled as `ℚ` printed in (canonical, exponent-free) decimal notation; the
round-trip theorem assumes decimal representability (`jsonOK`), which holds
for every actual float.  The parser also accepts exponent notation as
`json.loads` does, though the serializer never emits it for the magnitudes
at hand. -/

mutual
/-- A JSON value. -/
inductive Json where
  | null : Json
  | bool (b : Bool) : Json
  | num (q : ℚ) : Json
  | str (s : List Char) : Json
  | arr (elems : JsonList) : Json
  | obj (members : JsonObj) : Json

/-- The element list of a JSON array. -/
inductive JsonList where
  | nil : JsonList
  | cons (hd : Json) (tl : JsonList) : JsonList

/-- The key/value member list of a JSON object. -/
inductive JsonObj where
  | nil : JsonObj
  | cons (key : List Char) (val : Json) (tl : JsonObj) : JsonObj
end

/-! ### Serializing numbers -/

/-- The hexadecimal digit character (lowercase, as CPython emits). -/
def hexDigitC (n : ℕ) : Char :=
  match n with
  | 0 => '0' | 1 => '1' | 2 => '2' | 3 => '3' | 4 => '4'
  | 5 => '5' | 6 => '6' | 7 => '7' | 8 => '8' | 9 => '9'
  | 10 => 'a' | 11 => 'b' | 12 => 'c' | 13 => 'd' | 14 => 'e' | _ => 'f'

/-- Long division of the fractional part `f` (`0 ≤ f < 1`): repeatedly
multiply by 10 and take the integer digit, stopping when the remainder
reaches 0, with explicit fuel.  Returns the digits and the final remainder
(0 exactly when `f` has a finite decimal expansion reachable within the
fuel; fuel `den` suffices for every decimal-representable rational). -/
def fracExpand : ℚ → ℕ → List ℕ × ℚ
  | f, 0 => ([], f)
  | f, k + 1 =>
    if f = 0 then ([], 0)
    else
      let d : ℤ := (f * 10).floor
      let r := fracExpand (f * 10 - (d : ℚ)) k
      (d.toNat :: r.1, r.2)

/-- The non-negative magnitude serialized by `repr`: `q` itself or `-q`. -/
def absQ (q : ℚ) : ℚ := if q < 0 then -q else q

/-- Decimal notation of a non-negative rational: integer part, and the
fractional digits after `'.'` when the fractional part is non-zero (a whole
number prints without a decimal point, as a JSON integer does). -/
def printNumNN (q : ℚ) : List Char :=
  natChars q.floor.toNat ++
    (if (fracExpand (q - (q.floor : ℚ)) q.den).1 = [] then []
     else '.' :: ((fracExpand (q - (q.floor : ℚ)) q.den).1.map digitC))

/-- Decimal notation of a rational: optional sign, then the magnitude. -/
def printNum (q : ℚ) : List Char :=
  (if q < 0 then ['-'] else []) ++ printNumNN (absQ q)

/-- Decimal representability: the long division of the fractional part of
the magnitude terminates with remainder 0 within `den` steps.  Every IEEE
float satisfies this (its denominator is a power of two). -/
def numOK (q : ℚ) : Prop :=
  (fracExpand (absQ q - ((absQ q).floor : ℚ)) (absQ q).den).2 = 0

/-! ### Serializing strings -/

/-- Escape one character as CPython's `json.dumps(ensure_ascii=False)`
does: `\"`, `\\`, the short escapes `\n` `\t` `\r` `\b` `\f`, `\u00XX` for
the remaining control characters, every other character verbatim. -/
def escapeChar (c : Char) : List Char :=
  if c = '"' then ['\\', '"']
  else if c = '\\' then ['\\', '\\']
  else if c = '\n' then ['\\', 'n']
  else if c = '\t' then ['\\', 't']
  else if c = '\r' then ['\\', 'r']
  else if c.toNat = 8 then ['\\', 'b']
  else if c.toNat = 12 then ['\\', 'f']
  else if c.toNat < 32 then
    ['\\', 'u', '0', '0', hexDigitC (c.toNat / 16), hexDigitC (c.toNat % 16)]
  else [c]

/-- Escape a whole string body. -/
def escList : List Char → List Char
  | [] => []
  | c :: cs => escapeChar c ++ escList cs

/-- A serialized JSON string: the escaped body in double quotes. -/
def printStr (s : List Char) : List Char := '"' :: escList s ++ ['"']

/-! ### The pretty-printer (`json.dumps(…, indent=2, ensure_ascii=False)`) -/

/-- The indentation of nesting depth `d`: `2 * d` spaces. -/
def indentC (d : ℕ) : List Char := List.replicate (2 * d) ' '

mutual
/-- Serialize a value at nesting depth `d`. -/
def printVal : ℕ → Json → List Char
  | _, .null => "null".toList
  | _, .bool true => "true".toList
  | _, .bool false => "false".toList
  | _, .num q => printNum q
  | _, .str s => printStr s
  | _, .arr .nil => "[]".toList
  | d, .arr (.cons x xs) =>
    '[' :: '\n' :: (indentC (d + 1) ++ (printVal (d + 1) x ++
      (printRest (d + 1) xs ++ ('\n' :: (indentC d ++ [']'])))))
  | _, .obj .nil => ['\x7b', '\x7d']
  | d, .obj (.cons k v ms) =>
    '\x7b' :: '\n' :: (indentC (d + 1) ++ (printStr k ++ (':' :: ' ' ::
      (printVal (d + 1) v ++
        (printMembersRest (d + 1) ms ++ ('\n' :: (indentC d ++ ['\x7d'])))))))

/-- The remaining array items, each preceded by `',\n'` and indentation. -/
def printRest : ℕ → JsonList → List Char
  | _, .nil => []
  | d, .cons x xs => ',' :: '\n' :: (indentC d ++ (printVal d x ++ printRest d xs))

/-- The remaining object members, each preceded by `',\n'`, indentation,
the quoted key and `': '`. -/
def printMembersRest : ℕ → JsonObj → List Char
  | _, .nil => []
  | d, .cons k v ms =>
    ',' :: '\n' :: (indentC d ++ (printStr k ++ (':' :: ' ' ::
      (printVal d v ++ printMembersRest d ms))))
end

mutual
/-- Parser fuel sufficient for a value: its node count plus list lengths. -/
def jsize : Json → ℕ
  | .null => 1
  | .bool _ => 1
  | .num _ => 1
  | .str _ => 1
  | .arr l => 1 + jsizeL l
  | .obj ms => 1 + jsizeM ms

/-- Parser fuel sufficient for the items of an array. -/
def jsizeL : JsonList → ℕ
  | .nil => 0
  | .cons x xs => jsize x + 1 + jsizeL xs

/-- Parser fuel sufficient for the members of an object. -/
def jsizeM : JsonObj → ℕ
  | .nil => 0
  | .cons _ v ms => jsize v + 1 + jsizeM ms
end

mutual
/-- All numbers in the value are decimal-representable. -/
def jsonOK : Json → Prop
  | .num q => numOK q
  | .arr l => jsonOKL l
  | .obj ms => jsonOKM ms
  | _ => True

/-- All numbers in the array items are decimal-representable. -/
def jsonOKL : JsonList → Prop
  | .nil => True
  | .cons x xs => jsonOK x ∧ jsonOKL xs

/-- All numbers in the object members are decimal-representable. -/
def jsonOKM : JsonObj → Prop
  | .nil => True
  | .cons _ v ms => jsonOK v ∧ jsonOKM ms
end

/-! ### The parser (`json.loads`) -/

/-- JSON whitespace. -/
def isWsC (c : Char) : Bool :=
  c = ' ' || c = '\n' || c = '\t' || c = '\r'

/-- Skip leading whitespace. -/
def skipWs : List Char → List Char
  | [] => []
  | c :: cs => if isWsC c then skipWs cs else c :: cs

/-- ASCII decimal digit test. -/
def isDigitC (c : Char) : Bool :=
  decide (48 ≤ c.toNat) && decide (c.toNat ≤ 57)

/-- Take the maximal run of leading digits, as digit values. -/
def takeDigits : List Char → List ℕ × List Char
  | [] => ([], [])
  | c :: cs =>
    if isDigitC c then
      let r := takeDigits cs
      ((c.toNat - 48) :: r.1, r.2)
    else ([], c :: cs)

/-- The value of a big-endian digit list. -/
def digitsVal (ds : List ℕ) : ℕ := ds.foldl (fun a d => a * 10 + d) 0

/-- Hexadecimal digit value (both cases accepted, as `json.loads` does). -/
def parseHex (c : Char) : Option ℕ :=
  if 48 ≤ c.toNat ∧ c.toNat ≤ 57 then some (c.toNat - 48)
  else if 97 ≤ c.toNat ∧ c.toNat ≤ 102 then some (c.toNat - 87)
  else if 65 ≤ c.toNat ∧ c.toNat ≤ 70 then some (c.toNat - 55)
  else none

/-- Parse a string body up to and including the closing quote, decoding
escapes; returns the decoded content and the remaining input. -/
def parseStrBody : List Char → Option (List Char × List Char)
  | [] => none
  | c :: cs =>
    if c = '"' then some ([], cs)
    else if c = '\\' then
      match cs with
      | [] => none
      | e :: cs' =>
        if e = '"' then (parseStrBody cs').map (fun r => ('"' :: r.1, r.2))
        else if e = '\\' then (parseStrBody cs').map (fun r => ('\\' :: r.1, r.2))
        else if e = '/' then (parseStrBody cs').map (fun r => ('/' :: r.1, r.2))
        else if e = 'n' then (parseStrBody cs').map (fun r => ('\n' :: r.1, r.2))
        else if e = 't' then (parseStrBody cs').map (fun r => ('\t' :: r.1, r.2))
        else if e = 'r' then (parseStrBody cs').map (fun r => ('\r' :: r.1, r.2))
        else if e = 'b' then (parseStrBody cs').map (fun r => (Char.ofNat 8 :: r.1, r.2))
        else if e = 'f' then (parseStrBody cs').map (fun r => (Char.ofNat 12 :: r.1, r.2))
        else if e = 'u' then
          match cs' with
          | h1 :: h2 :: h3 :: h4 :: cs'' =>
            match parseHex h1, parseHex h2, parseHex h3, parseHex h4 with
            | some a, some b, some c2, some d2 =>
              (parseStrBody cs'').map
                (fun r => (Char.ofNat (((a * 16 + b) * 16 + c2) * 16 + d2) :: r.1, r.2))
            | _, _, _, _ => none
          | _ => none
        else none
    else (parseStrBody cs).map (fun r => (c :: r.1, r.2))

/-- Parse the digits of an exponent (after `e`/`E`), with optional sign,
and apply it to the value `v`. -/
def parseExpTail (v : ℚ) (t : List Char) : Option (ℚ × List Char) :=
  match t with
  | '+' :: t₂ =>
    if (takeDigits t₂).1 = [] then none
    else some (v * 10 ^ digitsVal (takeDigits t₂).1, (takeDigits t₂).2)
  | '-' :: t₂ =>
    if (takeDigits t₂).1 = [] then none
    else some (v / 10 ^ digitsVal (takeDigits t₂).1, (takeDigits t₂).2)
  | t' =>
    if (takeDigits t').1 = [] then none
    else some (v * 10 ^ digitsVal (takeDigits t').1, (takeDigits t').2)

/-- Parse an optional exponent suffix onto the value `v`. -/
def parseExpOpt (v : ℚ) (cs : List Char) : Option (ℚ × List Char) :=
  match cs with
  | [] => some (v, [])
  | c :: t =>
    if c = 'e' ∨ c = 'E' then parseExpTail v t
    else some (v, c :: t)

/-- Parse what follows the integer digits of a number: an optional
fractional part, then an optional exponent. -/
def parseNumFrac (ip : ℚ) (rest : List Char) : Option (ℚ × List Char) :=
  match rest with
  | [] => some (ip, [])
  | c :: t =>
    if c = '.' then
      if (takeDigits t).1 = [] then none
      else
        parseExpOpt (ip + (digitsVal (takeDigits t).1 : ℚ) / 10 ^ (takeDigits t).1.length)
          (takeDigits t).2
    else parseExpOpt ip (c :: t)

/-- Parse an unsigned number: digits, optional fraction, optional exponent. -/
def parseNumNN (cs : List Char) : Option (ℚ × List Char) :=
  if (takeDigits cs).1 = [] then none
  else parseNumFrac (digitsVal (takeDigits cs).1 : ℚ) (takeDigits cs).2

/-- Parse a number with optional leading minus sign. -/
def parseNum (cs : List Char) : Option (ℚ × List Char) :=
  match cs with
  | [] => none
  | c :: t =>
    if c = '-' then (parseNumNN t).map (fun r => (-r.1, r.2))
    else parseNumNN (c :: t)

mutual
/-- Parse one JSON value (after skipping whitespace), with fuel. -/
def parseValue : ℕ → List Char → Option (Json × List Char)
  | 0, _ => none
  | n + 1, cs =>
    match skipWs cs with
    | [] => none
    | c :: cs' => parseValueCore n c cs'
termination_by fuel _cs => (fuel, 0)

/-- Dispatch on the first significant character of a value. -/
def parseValueCore (n : ℕ) (c : Char) (cs' : List Char) : Option (Json × List Char) :=
  if c = 'n' then
    match cs' with
    | 'u' :: 'l' :: 'l' :: r => some (.null, r)
    | _ => none
  else if c = 't' then
    match cs' with
    | 'r' :: 'u' :: 'e' :: r => some (.bool true, r)
    | _ => none
  else if c = 'f' then
    match cs' with
    | 'a' :: 'l' :: 's' :: 'e' :: r => some (.bool false, r)
    | _ => none
  else if c = '"' then (parseStrBody cs').map (fun r => (.str r.1, r.2))
  else if c = '[' then parseArrBody n cs'
  else if c = '\x7b' then parseObjBody n cs'
  else (parseNum (c :: cs')).map (fun r => (.num r.1, r.2))
termination_by (n, 9)

/-- After `'['`: the empty array, or its non-empty item list. -/
def parseArrBody (n : ℕ) (cs' : List Char) : Option (Json × List Char) :=
  match skipWs cs' with
  | [] => none
  | c₂ :: t₂ =>
    if c₂ = ']' then some (.arr .nil, t₂)
    else (parseItems n cs').map (fun r => (.arr r.1, r.2))
termination_by (n, 8)

/-- After the opening brace: the empty object, or its non-empty member
list. -/
def parseObjBody (n : ℕ) (cs' : List Char) : Option (Json × List Char) :=
  match skipWs cs' with
  | [] => none
  | c₂ :: t₂ =>
    if c₂ = '\x7d' then some (.obj .nil, t₂)
    else (parseMembers n cs').map (fun r => (.obj r.1, r.2))
termination_by (n, 8)

/-- Parse the non-empty item list of an array, up to and including `']'`. -/
def parseItems : ℕ → List Char → Option (JsonList × List Char)
  | 0, _ => none
  | n + 1, cs =>
    match parseValue n cs with
    | none => none
    | some (v, r) => parseItemsCore n v r
termination_by fuel _cs => (fuel, 0)

/-- After one array item: a comma and more items, or the closing bracket. -/
def parseItemsCore (n : ℕ) (v : Json) (r : List Char) : Option (JsonList × List Char) :=
  match skipWs r with
  | [] => none
  | c :: t =>
    if c = ',' then (parseItems n t).map (fun r₂ => (.cons v r₂.1, r₂.2))
    else if c = ']' then some (.cons v .nil, t)
    else none
termination_by (n, 1)

/-- Parse the non-empty member list of an object, up to and including the
closing brace. -/
def parseMembers : ℕ → List Char → Option (JsonObj × List Char)
  | 0, _ => none
  | n + 1, cs =>
    match skipWs cs with
    | [] => none
    | c :: t => parseMembersKey n c t
termination_by fuel _cs => (fuel, 0)

/-- A member must start with a quoted key. -/
def parseMembersKey (n : ℕ) (c : Char) (t : List Char) : Option (JsonObj × List Char) :=
  if c = '"' then
    match parseStrBody t with
    | none => none
    | some (k, r) => parseMembersColon n k r
  else none
termination_by (n, 4)

/-- After the key: a colon. -/
def parseMembersColon (n : ℕ) (k : List Char) (r : List Char) :
    Option (JsonObj × List Char) :=
  match skipWs r with
  | [] => none
  | c₂ :: t₂ => if c₂ = ':' then parseMembersValue n k t₂ else none
termination_by (n, 3)

/-- After the colon: the member's value. -/
def parseMembersValue (n : ℕ) (k : List Char) (t₂ : List Char) :
    Option (JsonObj × List Char) :=
  match parseValue n t₂ with
  | none => none
  | some (v, r₃) => parseMembersAfter n k v r₃
termination_by (n, 2)

/-- After one member: a comma and more members, or the closing brace. -/
def parseMembersAfter (n : ℕ) (k : List Char) (v : Json) (r₃ : List Char) :
    Option (JsonObj × List Char) :=
  match skipWs r₃ with
  | [] => none
  | c₃ :: t₃ =>
    if c₃ = ',' then (parseMembers n t₃).map (fun r₅ => (.cons k v r₅.1, r₅.2))
    else if c₃ = '\x7d' then some (.cons k v .nil, t₃)
    else none
termination_by (n, 1)
end

/-! ### Whitespace and digit lemmas -/

/-- Lists of JSON whitespace characters. -/
def WsOnly (l : List Char) : Prop := ∀ c ∈ l, isWsC c = true

theorem wsOnly_indentC (d : ℕ) : WsOnly (indentC d) := by
  intro c hc
  rw [indentC] at hc
  rw [List.eq_of_mem_replicate hc]
  rfl

theorem wsOnly_newline_indentC (d : ℕ) : WsOnly ('\n' :: indentC d) := by
  intro c hc
  rcases List.mem_cons.mp hc with rfl | hc
  · rfl
  · exact wsOnly_indentC d c hc

theorem skipWs_ws_append (w l : List Char) (hw : WsOnly w) :
    skipWs (w ++ l) = skipWs l := by
  induction w with
  | nil => rfl
  | cons c cs ih =>
    rw [List.cons_append, skipWs, if_pos (hw c (List.mem_cons_self c cs))]
    exact ih fun x hx => hw x (List.mem_cons_of_mem c hx)

theorem skipWs_cons_not (c : Char) (l : List Char) (h : isWsC c = false) :
    skipWs (c :: l) = c :: l := by
  rw [skipWs, h]
  rfl

theorem jsize_pos : ∀ v : Json, 1 ≤ jsize v := by
  intro v
  cases v <;> simp [jsize]

/-- The input `rest` does not start with a digit (so a digit run before it
ends exactly there). -/
def notDigitStart : List Char → Prop
  | [] => True
  | c :: _ => isDigitC c = false

/-- The input `rest` does not start with anything that could extend a
number: a digit, a decimal point, or an exponent marker. -/
def numBoundary : List Char → Prop
  | [] => True
  | c :: _ => isDigitC c = false ∧ c ≠ '.' ∧ c ≠ 'e' ∧ c ≠ 'E'

theorem numBoundary_notDigitStart (l : List Char) (h : numBoundary l) :
    notDigitStart l := by
  cases l with
  | nil => trivial
  | cons c t => exact h.1

theorem digitC_toNat (d : ℕ) (h : d < 10) : (digitC d).toNat = 48 + d := by
  interval_cases d <;> rfl

theorem digitC_props (d : ℕ) (h : d < 10) :
    isDigitC (digitC d) = true ∧ isWsC (digitC d) = false ∧
    digitC d ≠ '.' ∧ digitC d ≠ 'e' ∧ digitC d ≠ 'E' ∧ digitC d ≠ '-' ∧
    digitC d ≠ ']' ∧ digitC d ≠ '\x7d' ∧ digitC d ≠ 'n' ∧ digitC d ≠ 't' ∧
    digitC d ≠ 'f' ∧ digitC d ≠ '"' ∧ digitC d ≠ '[' ∧ digitC d ≠ '\x7b' ∧
    (digitC d).toNat - 48 = d := by
  interval_cases d <;> exact ⟨rfl, rfl, by decide, by decide, by decide, by decide,
    by decide, by decide, by decide, by decide, by decide, by decide, by decide,
    by decide, by decide⟩

theorem takeDigits_notDigit (l : List Char) (h : notDigitStart l) :
    takeDigits l = ([], l) := by
  cases l with
  | nil => rfl
  | cons c t =>
    rw [takeDigits]
    rw [notDigitStart] at h
    rw [h]
    rfl

theorem takeDigits_spec (ds : List ℕ) (rest : List Char)
    (hds : ∀ d ∈ ds, d < 10) (hrest : notDigitStart rest) :
    takeDigits (ds.map digitC ++ rest) = (ds, rest) := by
  induction ds with
  | nil => exact takeDigits_notDigit rest hrest
  | cons d ds ih =>
    have hd := hds d (List.mem_cons_self d ds)
    rw [List.map_cons, List.cons_append, takeDigits, (digitC_props d hd).1,
      ih fun x hx => hds x (List.mem_cons_of_mem d hx)]
    simp [(digitC_props d hd).2.2.2.2.2.2.2.2.2.2.2.2.2.2]

theorem digitsVal_from (a : ℕ) (l : List ℕ) :
    l.foldl (fun x d => x * 10 + d) a = a * 10 ^ l.length + digitsVal l := by
  induction l generalizing a with
  | nil => simp [digitsVal]
  | cons d ds ih =>
    rw [List.foldl_cons, ih (a * 10 + d)]
    have h2 : digitsVal (d :: ds) = d * 10 ^ ds.length + digitsVal ds := by
      simp only [digitsVal, List.foldl_cons, Nat.zero_mul, Nat.zero_add]
      rw [show List.foldl (fun a d => a * 10 + d) d ds =
        ds.foldl (fun x d => x * 10 + d) d from rfl, ih d]
      rfl
    rw [h2, List.length_cons, pow_succ]
    ring

theorem digitsVal_cons (d : ℕ) (ds : List ℕ) :
    digitsVal (d :: ds) = d * 10 ^ ds.length + digitsVal ds := by
  simp only [digitsVal, List.foldl_cons, Nat.zero_mul, Nat.zero_add]
  rw [show List.foldl (fun a d => a * 10 + d) d ds =
    ds.foldl (fun x d => x * 10 + d) d from rfl, digitsVal_from]
  rfl

theorem digitsVal_append_singleton (xs : List ℕ) (d : ℕ) :
    digitsVal (xs ++ [d]) = digitsVal xs * 10 + d := by
  rw [digitsVal, List.foldl_append]
  rfl

theorem digitsVal_reverse_digits (l : List ℕ) :
    digitsVal l.reverse = Nat.ofDigits 10 l := by
  induction l with
  | nil => rfl
  | cons d ds ih =>
    rw [List.reverse_cons, digitsVal_append_singleton, ih, Nat.ofDigits_cons]
    ring

theorem natCharsAux_eq (fuel : ℕ) : ∀ n : ℕ, n ≤ fuel →
    natCharsAux fuel n = (Nat.digits 10 n).reverse.map digitC := by
  induction fuel with
  | zero =>
    intro n h
    interval_cases n
    simp [natCharsAux, Nat.digits_zero]
  | succ fuel ih =>
    intro n h
    by_cases hn : n = 0
    · subst hn
      simp [natCharsAux, Nat.digits_zero]
    · rw [natCharsAux, if_neg hn,
        Nat.digits_def' (b := 10) (by norm_num) (Nat.pos_of_ne_zero hn),
        List.reverse_cons, List.map_append,
        ih (n / 10) (by
          have := Nat.div_lt_self (Nat.pos_of_ne_zero hn) (by norm_num : 1 < 10)
          omega)]
      rfl

theorem natChars_of_ne_zero (n : ℕ) (hn : n ≠ 0) :
    natChars n = (Nat.digits 10 n).reverse.map digitC := by
  rw [natChars, if_neg hn, natCharsAux_eq n n le_rfl]

theorem takeDigits_natChars (n : ℕ) (rest : List Char) (hrest : notDigitStart rest) :
    ∃ ds, takeDigits (natChars n ++ rest) = (ds, rest) ∧ ds ≠ [] ∧ digitsVal ds = n := by
  by_cases hn : n = 0
  · subst hn
    refine ⟨[0], ?_, by simp, rfl⟩
    have : natChars 0 ++ rest = ([0].map digitC) ++ rest := rfl
    rw [this, takeDigits_spec [0] rest (by simp) hrest]
  · refine ⟨(Nat.digits 10 n).reverse, ?_, ?_, ?_⟩
    · rw [natChars_of_ne_zero n hn]
      exact takeDigits_spec _ rest
        (fun d hd => Nat.digits_lt_base (by norm_num) (List.mem_reverse.mp hd)) hrest
    · simp [Nat.digits_ne_nil_iff_ne_zero, hn]
    · rw [digitsVal_reverse_digits, Nat.ofDigits_digits]

/-! ### Number round trip -/

theorem fracExpand_spec : ∀ (k : ℕ) (f : ℚ), 0 ≤ f → f < 1 →
    (∀ d ∈ (fracExpand f k).1, d < 10) ∧
    (f = ((digitsVal (fracExpand f k).1 : ℚ) + (fracExpand f k).2) /
      10 ^ (fracExpand f k).1.length) ∧
    0 ≤ (fracExpand f k).2 ∧ (fracExpand f k).2 < 1 := by
  intro k
  induction k with
  | zero =>
    intro f h0 h1
    refine ⟨by simp [fracExpand], ?_, h0, h1⟩
    simp [fracExpand, digitsVal]
  | succ k ih =>
    intro f h0 h1
    by_cases hf : f = 0
    · subst hf
      have hz : fracExpand 0 (k + 1) = ([], 0) := by
        rw [fracExpand]
        simp
      rw [hz]
      exact ⟨by simp, by simp [digitsVal], le_rfl, by norm_num⟩
    · have hstep : fracExpand f (k + 1) =
          (((f * 10).floor.toNat :: (fracExpand (f * 10 - (((f * 10).floor : ℤ) : ℚ)) k).1),
           (fracExpand (f * 10 - (((f * 10).floor : ℤ) : ℚ)) k).2) := by
        rw [fracExpand, if_neg hf]
      have hdInt : (f * 10).floor = ⌊f * 10⌋ := ratFloor_eq_intFloor _
      have hd0 : 0 ≤ (f * 10).floor := by
        rw [hdInt]
        exact Int.floor_nonneg.mpr (by positivity)
      have hd10 : (f * 10).floor < 10 := by
        rw [hdInt]
        refine Int.floor_lt.mpr ?_
        push_cast
        nlinarith
      have hg0 : 0 ≤ f * 10 - (((f * 10).floor : ℤ) : ℚ) := by
        rw [hdInt]
        exact sub_nonneg.mpr (Int.floor_le _)
      have hg1 : f * 10 - (((f * 10).floor : ℤ) : ℚ) < 1 := by
        rw [hdInt]
        linarith [Int.lt_floor_add_one (f * 10)]
      obtain ⟨hdig, hval, hr0, hr1⟩ := ih _ hg0 hg1
      rw [hstep]
      refine ⟨?_, ?_, hr0, hr1⟩
      · intro x hx
        rcases List.mem_cons.mp hx with rfl | hx
        · have := Int.toNat_of_nonneg hd0
          omega
        · exact hdig x hx
      · have hcast : (((f * 10).floor.toNat : ℕ) : ℚ) = (((f * 10).floor : ℤ) : ℚ) := by
          exact_mod_cast Int.toNat_of_nonneg hd0
        rw [eq_div_iff (by positivity :
          (0:ℚ) < 10 ^ (fracExpand (f * 10 - (((f * 10).floor : ℤ) : ℚ)) k).1.length).ne']
          at hval
        rw [digitsVal_cons]
        push_cast
        rw [hcast, List.length_cons, pow_succ]
        rw [eq_div_iff (by positivity)]
        linear_combination hval

theorem frac_zero_of_expand_nil (k : ℕ) (f : ℚ) (h0 : 0 ≤ f) (h1 : f < 1)
    (hnil : (fracExpand f k).1 = []) (hr : (fracExpand f k).2 = 0) : f = 0 := by
  have hval := (fracExpand_spec k f h0 h1).2.1
  rw [hnil, hr] at hval
  simpa [digitsVal] using hval

theorem parseExpOpt_boundary (v : ℚ) (l : List Char) (h : numBoundary l) :
    parseExpOpt v l = some (v, l) := by
  cases l with
  | nil => rfl
  | cons c t =>
    obtain ⟨-, -, he, hE⟩ := h
    rw [parseExpOpt, if_neg (by simp [he, hE] : ¬(c = 'e' ∨ c = 'E'))]

theorem notDigitStart_dot (l : List Char) :
    notDigitStart ('.' :: l) := by
  rw [notDigitStart]
  rfl

theorem parseNumNN_print (q : ℚ) (h0 : 0 ≤ q)
    (hok : (fracExpand (q - ((q.floor : ℤ) : ℚ)) q.den).2 = 0)
    (rest : List Char) (hrest : numBoundary rest) :
    parseNumNN (printNumNN q ++ rest) = some (q, rest) := by
  have hflq : (q.floor : ℤ) = ⌊q⌋ := ratFloor_eq_intFloor q
  have hfr0 : 0 ≤ q - ((q.floor : ℤ) : ℚ) := by
    rw [hflq]
    exact sub_nonneg.mpr (Int.floor_le q)
  have hfr1 : q - ((q.floor : ℤ) : ℚ) < 1 := by
    rw [hflq]
    linarith [Int.lt_floor_add_one q]
  have hip0 : 0 ≤ q.floor := by
    rw [hflq]
    exact Int.floor_nonneg.mpr h0
  have hipcast : ((q.floor.toNat : ℕ) : ℚ) = ((q.floor : ℤ) : ℚ) := by
    exact_mod_cast Int.toNat_of_nonneg hip0
  by_cases hnil : (fracExpand (q - ((q.floor : ℤ) : ℚ)) q.den).1 = []
  · have hfz : q - ((q.floor : ℤ) : ℚ) = 0 :=
      frac_zero_of_expand_nil _ _ hfr0 hfr1 hnil hok
    have hq : ((q.floor.toNat : ℕ) : ℚ) = q := by
      rw [hipcast]
      linarith
    obtain ⟨ds, hds, hne, hdv⟩ :=
      takeDigits_natChars q.floor.toNat rest (numBoundary_notDigitStart rest hrest)
    rw [printNumNN, if_pos hnil, List.append_nil]
    rw [parseNumNN, hds]
    rw [if_neg hne]
    show parseNumFrac ((digitsVal ds : ℕ) : ℚ) rest = some (q, rest)
    cases rest with
    | nil =>
      rw [parseNumFrac]
      rw [show ((digitsVal ds : ℕ) : ℚ) = q by rw [hdv]; exact hq]
    | cons c t =>
      rw [parseNumFrac, if_neg hrest.2.1, parseExpOpt_boundary _ _ hrest]
      rw [show ((digitsVal ds : ℕ) : ℚ) = q by rw [hdv]; exact hq]
  · obtain ⟨hdig, hval, -, -⟩ := fracExpand_spec q.den _ hfr0 hfr1
    rw [hok] at hval
    obtain ⟨ds, hds, hne, hdv⟩ := takeDigits_natChars q.floor.toNat
      ('.' :: ((fracExpand (q - ((q.floor : ℤ) : ℚ)) q.den).1.map digitC ++ rest))
      (notDigitStart_dot _)
    rw [printNumNN, if_neg hnil]
    rw [show (natChars q.floor.toNat ++
        ('.' :: (fracExpand (q - ((q.floor : ℤ) : ℚ)) q.den).1.map digitC)) ++ rest =
      natChars q.floor.toNat ++
        ('.' :: ((fracExpand (q - ((q.floor : ℤ) : ℚ)) q.den).1.map digitC ++ rest)) by
        simp [List.append_assoc]]
    rw [parseNumNN, hds]
    rw [if_neg hne]
    show parseNumFrac ((digitsVal ds : ℕ) : ℚ)
      ('.' :: ((fracExpand (q - ((q.floor : ℤ) : ℚ)) q.den).1.map digitC ++ rest)) =
      some (q, rest)
    rw [parseNumFrac, if_pos rfl,
      takeDigits_spec _ rest hdig (numBoundary_notDigitStart rest hrest)]
    rw [if_neg hnil]
    rw [parseExpOpt_boundary _ _ hrest]
    rw [show ((digitsVal ds : ℕ) : ℚ) +
        ((digitsVal (fracExpand (q - ((q.floor : ℤ) : ℚ)) q.den).1 : ℕ) : ℚ) /
          10 ^ (fracExpand (q - ((q.floor : ℤ) : ℚ)) q.den).1.length = q by
      rw [hdv, hipcast]
      linear_combination ((-1 : ℚ)) * hval]

theorem natChars_head (n : ℕ) : ∃ d t, natChars n = digitC d :: t ∧ d < 10 := by
  by_cases hn : n = 0
  · subst hn
    exact ⟨0, [], rfl, by norm_num⟩
  · rw [natChars_of_ne_zero n hn]
    have hne : Nat.digits 10 n ≠ [] := by
      simp [Nat.digits_ne_nil_iff_ne_zero, hn]
    cases hrev : (Nat.digits 10 n).reverse with
    | nil => exact absurd (by simpa using hrev) hne
    | cons d ds =>
      refine ⟨d, ds.map digitC, rfl, ?_⟩
      exact Nat.digits_lt_base (by norm_num)
        (List.mem_reverse.mp (hrev ▸ List.mem_cons_self d ds))

theorem printNumNN_head (q : ℚ) :
    ∃ d t, printNumNN q = digitC d :: t ∧ d < 10 := by
  obtain ⟨d, t, hh, hd⟩ := natChars_head q.floor.toNat
  refine ⟨d, t ++ (if (fracExpand (q - ((q.floor : ℤ) : ℚ)) q.den).1 = [] then []
    else '.' :: ((fracExpand (q - ((q.floor : ℤ) : ℚ)) q.den).1.map digitC)), ?_, hd⟩
  rw [printNumNN, hh, List.cons_append]

theorem parseNum_print (q : ℚ) (hok : numOK q) (rest : List Char)
    (hrest : numBoundary rest) :
    parseNum (printNum q ++ rest) = some (q, rest) := by
  by_cases hq : q < 0
  · have habs : absQ q = -q := by rw [absQ, if_pos hq]
    rw [numOK, habs] at hok
    have h0 : (0:ℚ) ≤ -q := by linarith
    rw [printNum, if_pos hq, habs]
    rw [show (['-'] ++ printNumNN (-q)) ++ rest = '-' :: (printNumNN (-q) ++ rest) by
      simp]
    rw [parseNum, if_pos rfl, parseNumNN_print (-q) h0 hok rest hrest]
    rw [Option.map_some']
    rw [neg_neg]
  · have habs : absQ q = q := by rw [absQ, if_neg hq]
    rw [numOK, habs] at hok
    rw [printNum, if_neg hq, habs, List.nil_append]
    obtain ⟨d, t, hh, hd⟩ := printNumNN_head q
    rw [hh, List.cons_append, parseNum,
      if_neg (digitC_props d hd).2.2.2.2.2.1, ← List.cons_append, ← hh]
    exact parseNumNN_print q (not_lt.mp hq) hok rest hrest

/-! ### String round trip -/

theorem parseHex_hexDigitC (n : ℕ) (h : n < 16) : parseHex (hexDigitC n) = some n := by
  interval_cases n <;> rfl

theorem parseHex_zero : parseHex '0' = some 0 := by decide

theorem parseStrBody_escList (s : List Char) (rest : List Char) :
    parseStrBody (escList s ++ ('"' :: rest)) = some (s, rest) := by
  induction s with
  | nil =>
    rw [escList, List.nil_append, parseStrBody.eq_def]
    simp
  | cons c cs ih =>
    rw [escList, List.append_assoc]
    by_cases h1 : c = '"'
    · subst h1
      rw [escapeChar, if_pos rfl, List.cons_append, List.cons_append, List.nil_append,
        parseStrBody.eq_def]
      simp +decide [ih]
    · by_cases h2 : c = '\\'
      · subst h2
        rw [escapeChar, if_neg (by decide), if_pos rfl, List.cons_append,
          List.cons_append, List.nil_append, parseStrBody.eq_def]
        simp +decide [ih]
      · by_cases h3 : c = '\n'
        · subst h3
          rw [escapeChar, if_neg (by decide), if_neg (by decide), if_pos rfl,
            List.cons_append, List.cons_append, List.nil_append, parseStrBody.eq_def]
          simp +decide [ih]
        · by_cases h4 : c = '\t'
          · subst h4
            rw [escapeChar, if_neg (by decide), if_neg (by decide), if_neg (by decide),
              if_pos rfl, List.cons_append, List.cons_append, List.nil_append,
              parseStrBody.eq_def]
            simp +decide [ih]
          · by_cases h5 : c = '\r'
            · subst h5
              rw [escapeChar, if_neg (by decide), if_neg (by decide), if_neg (by decide),
                if_neg (by decide), if_pos rfl, List.cons_append, List.cons_append,
                List.nil_append, parseStrBody.eq_def]
              simp +decide [ih]
            · by_cases h6 : c.toNat = 8
              · rw [escapeChar, if_neg h1, if_neg h2, if_neg h3, if_neg h4, if_neg h5,
                  if_pos h6, List.cons_append, List.cons_append, List.nil_append,
                  parseStrBody.eq_def]
                have hc : Char.ofNat 8 = c := by
                  rw [← h6]
                  exact Char.ofNat_toNat c
                simp +decide [ih]
                exact hc
              · by_cases h7 : c.toNat = 12
                · rw [escapeChar, if_neg h1, if_neg h2, if_neg h3, if_neg h4, if_neg h5,
                    if_neg h6, if_pos h7, List.cons_append, List.cons_append,
                    List.nil_append, parseStrBody.eq_def]
                  have hc : Char.ofNat 12 = c := by
                    rw [← h7]
                    exact Char.ofNat_toNat c
                  simp +decide [ih]
                  exact hc
                · by_cases h8 : c.toNat < 32
                  · rw [escapeChar, if_neg h1, if_neg h2, if_neg h3, if_neg h4, if_neg h5,
                      if_neg h6, if_neg h7, if_pos h8]
                    have h16a : c.toNat / 16 < 16 := by omega
                    have h16b : c.toNat % 16 < 16 := by omega
                    have hc : Char.ofNat ((((0 * 16 + 0) * 16 + c.toNat / 16) * 16 +
                        c.toNat % 16)) = c := by
                      rw [show (((0 * 16 + 0) * 16 + c.toNat / 16) * 16 + c.toNat % 16) =
                        c.toNat by omega]
                      exact Char.ofNat_toNat c
                    rw [List.cons_append, List.cons_append, List.cons_append,
                      List.cons_append, List.cons_append, List.cons_append,
                      List.nil_append, parseStrBody.eq_def]
                    simp +decide [parseHex_zero, parseHex_hexDigitC _ h16a,
                      parseHex_hexDigitC _ h16b, ih]
                    rw [show c.toNat / 16 * 16 + c.toNat % 16 = c.toNat by omega]
                    exact Char.ofNat_toNat c
                  · rw [escapeChar, if_neg h1, if_neg h2, if_neg h3, if_neg h4, if_neg h5,
                      if_neg h6, if_neg h7, if_neg h8, List.singleton_append,
                      parseStrBody.eq_def]
                    simp [h1, h2, ih]

/-! ### Head characters and whitespace transport -/

theorem printNum_head (q : ℚ) : ∃ c t, printNum q = c :: t ∧ isWsC c = false ∧
    c ≠ 'n' ∧ c ≠ 't' ∧ c ≠ 'f' ∧ c ≠ '"' ∧ c ≠ '[' ∧ c ≠ '\x7b' ∧
    c ≠ ']' ∧ c ≠ '\x7d' := by
  by_cases hq : q < 0
  · refine ⟨'-', printNumNN (absQ q), ?_, by decide, by decide, by decide, by decide,
      by decide, by decide, by decide, by decide, by decide⟩
    rw [printNum, if_pos hq]
    rfl
  · obtain ⟨dd, t, hh, hd⟩ := printNumNN_head (absQ q)
    obtain ⟨-, hws, -, -, -, -, hrb, hcb, hn, ht, hf, hqt, hlb, hob, -⟩ :=
      digitC_props dd hd
    refine ⟨digitC dd, t, ?_, hws, hn, ht, hf, hqt, hlb, hob, hrb, hcb⟩
    rw [printNum, if_neg hq, List.nil_append, hh]

theorem printVal_head (d : ℕ) (v : Json) :
    ∃ c t, printVal d v = c :: t ∧ isWsC c = false ∧ c ≠ ']' ∧ c ≠ '\x7d' := by
  cases v with
  | null => exact ⟨'n', _, rfl, by decide, by decide, by decide⟩
  | bool b =>
    cases b with
    | false => exact ⟨'f', _, rfl, by decide, by decide, by decide⟩
    | true => exact ⟨'t', _, rfl, by decide, by decide, by decide⟩
  | num q =>
    obtain ⟨c, t, hh, hws, -, -, -, -, -, -, hrb, hcb⟩ := printNum_head q
    refine ⟨c, t, ?_, hws, hrb, hcb⟩
    rw [show printVal d (.num q) = printNum q from rfl, hh]
  | str s =>
    exact ⟨'"', escList s ++ ['"'], rfl, by decide, by decide, by decide⟩
  | arr l =>
    cases l with
    | nil => exact ⟨'[', [']'], rfl, by decide, by decide, by decide⟩
    | cons x xs =>
      exact ⟨'[', _, rfl, by decide, by decide, by decide⟩
  | obj ms =>
    cases ms with
    | nil => exact ⟨'\x7b', ['\x7d'], rfl, by decide, by decide, by decide⟩
    | cons k v tl =>
      exact ⟨'\x7b', _, rfl, by decide, by decide, by decide⟩

theorem parseValue_ws (n : ℕ) (w l : List Char) (hw : WsOnly w) :
    parseValue n (w ++ l) = parseValue n l := by
  cases n with
  | zero => simp only [parseValue]
  | succ n =>
    simp only [parseValue]
    rw [skipWs_ws_append w l hw]

theorem parseMembers_ws (n : ℕ) (w l : List Char) (hw : WsOnly w) :
    parseMembers n (w ++ l) = parseMembers n l := by
  cases n with
  | zero => simp only [parseMembers]
  | succ n =>
    simp only [parseMembers]
    rw [skipWs_ws_append w l hw]

theorem numBoundary_of_ws (c : Char) (h : isWsC c = true) (l : List Char) :
    numBoundary (c :: l) := by
  rw [isWsC] at h
  simp only [Bool.or_eq_true, decide_eq_true_eq] at h
  rcases h with ((rfl | rfl) | rfl) | rfl <;>
    exact ⟨by decide, by decide, by decide, by decide⟩

theorem numBoundary_ws_append (w l : List Char) (hw : WsOnly w) (hl : numBoundary l) :
    numBoundary (w ++ l) := by
  cases w with
  | nil => exact hl
  | cons c t => exact numBoundary_of_ws c (hw c (List.mem_cons_self c t)) _

theorem numBoundary_rbracket (l : List Char) : numBoundary (']' :: l) :=
  ⟨by decide, by decide, by decide, by decide⟩

theorem numBoundary_rbrace (l : List Char) : numBoundary ('\x7d' :: l) :=
  ⟨by decide, by decide, by decide, by decide⟩

theorem numBoundary_comma (l : List Char) : numBoundary (',' :: l) :=
  ⟨by decide, by decide, by decide, by decide⟩

/-! ### One-step unfolding lemmas for the parser -/

theorem parseValue_step (n : ℕ) (cs : List Char) (c : Char) (t : List Char)
    (h : skipWs cs = c :: t) :
    parseValue (n + 1) cs = parseValueCore n c t := by
  simp only [parseValue]
  rw [h]

theorem parseItems_step (n : ℕ) (cs : List Char) (v : Json) (r : List Char)
    (h : parseValue n cs = some (v, r)) :
    parseItems (n + 1) cs = parseItemsCore n v r := by
  simp only [parseItems]
  rw [h]

theorem parseMembers_step (n : ℕ) (cs : List Char) (c : Char) (t : List Char)
    (h : skipWs cs = c :: t) :
    parseMembers (n + 1) cs = parseMembersKey n c t := by
  simp only [parseMembers]
  rw [h]

theorem parseArrBody_step (n : ℕ) (cs' : List Char) (c₂ : Char) (t₂ : List Char)
    (h : skipWs cs' = c₂ :: t₂) :
    parseArrBody n cs' = (if c₂ = ']' then some (.arr .nil, t₂)
      else (parseItems n cs').map (fun r => (.arr r.1, r.2))) := by
  simp only [parseArrBody]
  rw [h]

theorem parseObjBody_step (n : ℕ) (cs' : List Char) (c₂ : Char) (t₂ : List Char)
    (h : skipWs cs' = c₂ :: t₂) :
    parseObjBody n cs' = (if c₂ = '\x7d' then some (.obj .nil, t₂)
      else (parseMembers n cs').map (fun r => (.obj r.1, r.2))) := by
  simp only [parseObjBody]
  rw [h]

theorem parseItemsCore_step (n : ℕ) (v : Json) (r : List Char) (c : Char) (t : List Char)
    (h : skipWs r = c :: t) :
    parseItemsCore n v r =
      (if c = ',' then (parseItems n t).map (fun r₂ => (JsonList.cons v r₂.1, r₂.2))
       else if c = ']' then some (.cons v .nil, t)
       else none) := by
  simp only [parseItemsCore]
  rw [h]

theorem parseMembersKey_quote (n : ℕ) (t : List Char) (k : List Char) (r : List Char)
    (h : parseStrBody t = some (k, r)) :
    parseMembersKey n '"' t = parseMembersColon n k r := by
  simp only [parseMembersKey]
  rw [if_pos trivial, h]

theorem parseMembersColon_step (n : ℕ) (k : List Char) (r : List Char) (c₂ : Char)
    (t₂ : List Char) (h : skipWs r = c₂ :: t₂) :
    parseMembersColon n k r = (if c₂ = ':' then parseMembersValue n k t₂ else none) := by
  simp only [parseMembersColon]
  rw [h]

theorem parseMembersValue_step (n : ℕ) (k : List Char) (t₂ : List Char) (v : Json)
    (r₃ : List Char) (h : parseValue n t₂ = some (v, r₃)) :
    parseMembersValue n k t₂ = parseMembersAfter n k v r₃ := by
  simp only [parseMembersValue]
  rw [h]

theorem parseMembersAfter_step (n : ℕ) (k : List Char) (v : Json) (r₃ : List Char)
    (c₃ : Char) (t₃ : List Char) (h : skipWs r₃ = c₃ :: t₃) :
    parseMembersAfter n k v r₃ =
      (if c₃ = ',' then (parseMembers n t₃).map (fun r₅ => (JsonObj.cons k v r₅.1, r₅.2))
       else if c₃ = '\x7d' then some (.cons k v .nil, t₃)
       else none) := by
  simp only [parseMembersAfter]
  rw [h]

/-! ### The round trip: the parser inverts the pretty-printer -/

mutual
/-- Parsing the printed form of `v` (given enough fuel, decimal numbers,
and an input remainder that cannot extend a number) yields `v` exactly. -/
theorem parseValue_print (v : Json) (fuel d : ℕ) (rest : List Char)
    (hfuel : jsize v ≤ fuel) (hok : jsonOK v) (hrest : numBoundary rest) :
    parseValue fuel (printVal d v ++ rest) = some (v, rest) := by
  obtain ⟨n, rfl⟩ : ∃ n, fuel = n + 1 := by
    have := jsize_pos v
    cases fuel with
    | zero => omega
    | succ n => exact ⟨n, rfl⟩
  cases v with
  | null =>
    rw [show printVal d Json.null ++ rest = 'n' :: 'u' :: 'l' :: 'l' :: rest from rfl]
    rw [parseValue_step n _ 'n' ('u' :: 'l' :: 'l' :: rest)
      (skipWs_cons_not _ _ (by decide))]
    rw [parseValueCore.eq_def]
    rw [if_pos rfl]
    rfl
  | bool b =>
    cases b with
    | true =>
      rw [show printVal d (Json.bool true) ++ rest = 't' :: 'r' :: 'u' :: 'e' :: rest
        from rfl]
      rw [parseValue_step n _ 't' ('r' :: 'u' :: 'e' :: rest)
        (skipWs_cons_not _ _ (by decide))]
      rw [parseValueCore.eq_def]
      rw [if_neg (by decide), if_pos rfl]
      rfl
    | false =>
      rw [show printVal d (Json.bool false) ++ rest =
        'f' :: 'a' :: 'l' :: 's' :: 'e' :: rest from rfl]
      rw [parseValue_step n _ 'f' ('a' :: 'l' :: 's' :: 'e' :: rest)
        (skipWs_cons_not _ _ (by decide))]
      rw [parseValueCore.eq_def]
      rw [if_neg (by decide), if_neg (by decide), if_pos rfl]
      rfl
  | num q =>
    obtain ⟨c, t, hh, hws, hn, ht, hf, hq, hlb, hob, hrb, hcb⟩ := printNum_head q
    have hskip : skipWs (printVal d (.num q) ++ rest) = c :: (t ++ rest) := by
      rw [show printVal d (.num q) = printNum q from rfl, hh, List.cons_append]
      exact skipWs_cons_not _ _ hws
    rw [parseValue_step n _ _ _ hskip]
    rw [parseValueCore.eq_def]
    rw [if_neg hn, if_neg ht, if_neg hf, if_neg hq, if_neg hlb, if_neg hob]
    rw [← List.cons_append, ← hh, parseNum_print q hok rest hrest]
    rfl
  | str s =>
    have hskip : skipWs (printVal d (.str s) ++ rest) =
        '"' :: (escList s ++ ('"' :: rest)) := by
      rw [show printVal d (.str s) ++ rest = '"' :: (escList s ++ ('"' :: rest)) by
        show (('"' :: escList s) ++ ['"']) ++ rest = _
        simp [List.append_assoc]]
      exact skipWs_cons_not _ _ (by decide)
    rw [parseValue_step n _ _ _ hskip]
    rw [parseValueCore.eq_def]
    rw [if_neg (by decide), if_neg (by decide), if_neg (by decide), if_pos rfl,
      parseStrBody_escList s rest]
    rfl
  | arr l =>
    cases l with
    | nil =>
      rw [show printVal d (Json.arr JsonList.nil) ++ rest = '[' :: ']' :: rest from rfl]
      rw [parseValue_step n _ '[' (']' :: rest) (skipWs_cons_not _ _ (by decide))]
      rw [parseValueCore.eq_def]
      rw [if_neg (by decide), if_neg (by decide), if_neg (by decide), if_neg (by decide),
        if_pos rfl]
      rw [parseArrBody_step n _ ']' rest (skipWs_cons_not _ _ (by decide)), if_pos rfl]
    | cons x xs =>
      have hshape : printVal d (.arr (.cons x xs)) ++ rest =
          '[' :: (('\n' :: indentC (d + 1)) ++ (printVal (d + 1) x ++
            (printRest (d + 1) xs ++ (('\n' :: indentC d) ++ (']' :: rest))))) := by
        show ('[' :: '\n' :: (indentC (d + 1) ++ (printVal (d + 1) x ++
          (printRest (d + 1) xs ++ ('\n' :: (indentC d ++ [']'])))))) ++ rest = _
        simp [List.append_assoc]
      have hskip : skipWs (printVal d (.arr (.cons x xs)) ++ rest) =
          '[' :: (('\n' :: indentC (d + 1)) ++ (printVal (d + 1) x ++
            (printRest (d + 1) xs ++ (('\n' :: indentC d) ++ (']' :: rest))))) := by
        rw [hshape]
        exact skipWs_cons_not _ _ (by decide)
      rw [parseValue_step n _ _ _ hskip]
      rw [parseValueCore.eq_def]
      rw [if_neg (by decide), if_neg (by decide), if_neg (by decide), if_neg (by decide),
        if_pos rfl]
      obtain ⟨c₀, t₀, hh₀, hws₀, hrb₀, hcb₀⟩ := printVal_head (d + 1) x
      have hskip2 : skipWs (('\n' :: indentC (d + 1)) ++ (printVal (d + 1) x ++
          (printRest (d + 1) xs ++ (('\n' :: indentC d) ++ (']' :: rest))))) =
          c₀ :: (t₀ ++ (printRest (d + 1) xs ++ (('\n' :: indentC d) ++ (']' :: rest)))) := by
        rw [skipWs_ws_append _ _ (wsOnly_newline_indentC (d + 1)), hh₀, List.cons_append]
        exact skipWs_cons_not _ _ hws₀
      rw [parseArrBody_step n _ _ _ hskip2, if_neg hrb₀]
      have hfuel' : jsize x + 1 + jsizeL xs ≤ n := by
        have h1 : jsize (.arr (.cons x xs)) = 1 + (jsize x + 1 + jsizeL xs) := rfl
        omega
      rw [parseItems_print x xs n (d + 1) ('\n' :: indentC (d + 1)) ('\n' :: indentC d)
        rest hfuel' hok.1 hok.2 (wsOnly_newline_indentC _) (wsOnly_newline_indentC _)]
      rfl
  | obj ms =>
    cases ms with
    | nil =>
      rw [show printVal d (Json.obj JsonObj.nil) ++ rest = '\x7b' :: '\x7d' :: rest
        from rfl]
      rw [parseValue_step n _ '\x7b' ('\x7d' :: rest) (skipWs_cons_not _ _ (by decide))]
      rw [parseValueCore.eq_def]
      rw [if_neg (by decide), if_neg (by decide), if_neg (by decide), if_neg (by decide),
        if_neg (by decide), if_pos rfl]
      rw [parseObjBody_step n _ '\x7d' rest (skipWs_cons_not _ _ (by decide)), if_pos rfl]
    | cons k x ms' =>
      have hshape : printVal d (.obj (.cons k x ms')) ++ rest =
          '\x7b' :: (('\n' :: indentC (d + 1)) ++ (printStr k ++ (':' :: ' ' ::
            (printVal (d + 1) x ++ (printMembersRest (d + 1) ms' ++
              (('\n' :: indentC d) ++ ('\x7d' :: rest))))))) := by
        show ('\x7b' :: '\n' :: (indentC (d + 1) ++ (printStr k ++ (':' :: ' ' ::
          (printVal (d + 1) x ++ (printMembersRest (d + 1) ms' ++
            ('\n' :: (indentC d ++ ['\x7d'])))))))) ++ rest = _
        simp [List.append_assoc]
      have hskip : skipWs (printVal d (.obj (.cons k x ms')) ++ rest) =
          '\x7b' :: (('\n' :: indentC (d + 1)) ++ (printStr k ++ (':' :: ' ' ::
            (printVal (d + 1) x ++ (printMembersRest (d + 1) ms' ++
              (('\n' :: indentC d) ++ ('\x7d' :: rest))))))) := by
        rw [hshape]
        exact skipWs_cons_not _ _ (by decide)
      rw [parseValue_step n _ _ _ hskip]
      rw [parseValueCore.eq_def]
      rw [if_neg (by decide), if_neg (by decide), if_neg (by decide), if_neg (by decide),
        if_neg (by decide), if_pos rfl]
      have hskip2 : skipWs (('\n' :: indentC (d + 1)) ++ (printStr k ++ (':' :: ' ' ::
          (printVal (d + 1) x ++ (printMembersRest (d + 1) ms' ++
            (('\n' :: indentC d) ++ ('\x7d' :: rest))))))) =
          '"' :: (escList k ++ ('"' :: (':' :: ' ' :: (printVal (d + 1) x ++
            (printMembersRest (d + 1) ms' ++ (('\n' :: indentC d) ++
              ('\x7d' :: rest))))))) := by
        rw [skipWs_ws_append _ _ (wsOnly_newline_indentC (d + 1)),
          show printStr k ++ (':' :: ' ' :: (printVal (d + 1) x ++
              (printMembersRest (d + 1) ms' ++ (('\n' :: indentC d) ++
                ('\x7d' :: rest))))) =
            '"' :: (escList k ++ ('"' :: (':' :: ' ' :: (printVal (d + 1) x ++
              (printMembersRest (d + 1) ms' ++ (('\n' :: indentC d) ++
                ('\x7d' :: rest))))))) by
            show (('"' :: escList k) ++ ['"']) ++ _ = _
            simp [List.append_assoc]]
        exact skipWs_cons_not _ _ (by decide)
      rw [parseObjBody_step n _ _ _ hskip2, if_neg (by decide)]
      have hfuel' : jsize x + 1 + jsizeM ms' ≤ n := by
        have h1 : jsize (.obj (.cons k x ms')) = 1 + (jsize x + 1 + jsizeM ms') := rfl
        omega
      rw [parseMembers_print k x ms' n (d + 1) ('\n' :: indentC (d + 1))
        ('\n' :: indentC d) rest hfuel' hok.1 hok.2 (wsOnly_newline_indentC _)
        (wsOnly_newline_indentC _)]
      rfl
  termination_by sizeOf v

/-- Parsing the printed items of a non-empty array (preceded by whitespace
and followed by whitespace and `']'`) yields the item list. -/
theorem parseItems_print (x : Json) (xs : JsonList) (fuel d : ℕ) (w w₂ rest : List Char)
    (hfuel : jsize x + 1 + jsizeL xs ≤ fuel) (hokx : jsonOK x) (hokxs : jsonOKL xs)
    (hw : WsOnly w) (hw₂ : WsOnly w₂) :
    parseItems fuel (w ++ (printVal d x ++ (printRest d xs ++ (w₂ ++ (']' :: rest))))) =
      some (JsonList.cons x xs, rest) := by
  obtain ⟨n, rfl⟩ : ∃ n, fuel = n + 1 := by
    cases fuel with
    | zero => omega
    | succ n => exact ⟨n, rfl⟩
  cases xs with
  | nil =>
    have hb : numBoundary (w₂ ++ (']' :: rest)) :=
      numBoundary_ws_append _ _ hw₂ (numBoundary_rbracket rest)
    have hPV : parseValue n (w ++ (printVal d x ++ (printRest d .nil ++
        (w₂ ++ (']' :: rest))))) = some (x, w₂ ++ (']' :: rest)) := by
      rw [parseValue_ws n w _ hw,
        show printRest d JsonList.nil = ([] : List Char) from rfl, List.nil_append]
      exact parseValue_print x n d _ (by omega) hokx hb
    rw [parseItems_step n _ _ _ hPV]
    have hskip : skipWs (w₂ ++ (']' :: rest)) = ']' :: rest := by
      rw [skipWs_ws_append _ _ hw₂]
      exact skipWs_cons_not _ _ (by decide)
    rw [parseItemsCore_step n _ _ _ _ hskip, if_neg (by decide), if_pos rfl]
  | cons y ys =>
    have hshape : printRest d (.cons y ys) ++ (w₂ ++ (']' :: rest)) =
        ',' :: (('\n' :: indentC d) ++ (printVal d y ++ (printRest d ys ++
          (w₂ ++ (']' :: rest))))) := by
      show (',' :: '\n' :: (indentC d ++ (printVal d y ++ printRest d ys))) ++
          (w₂ ++ (']' :: rest)) = _
      simp [List.append_assoc]
    have hPV : parseValue n (w ++ (printVal d x ++ (printRest d (.cons y ys) ++
        (w₂ ++ (']' :: rest))))) =
        some (x, printRest d (.cons y ys) ++ (w₂ ++ (']' :: rest))) := by
      rw [parseValue_ws n w _ hw]
      apply parseValue_print x n d _ (by omega) hokx
      rw [hshape]
      exact numBoundary_comma _
    rw [parseItems_step n _ _ _ hPV]
    have hskip : skipWs (printRest d (.cons y ys) ++ (w₂ ++ (']' :: rest))) =
        ',' :: (('\n' :: indentC d) ++ (printVal d y ++ (printRest d ys ++
          (w₂ ++ (']' :: rest))))) := by
      rw [hshape]
      exact skipWs_cons_not _ _ (by decide)
    rw [parseItemsCore_step n _ _ _ _ hskip, if_pos rfl]
    have hfuel2 : jsize y + 1 + jsizeL ys ≤ n := by
      have h1 : jsizeL (JsonList.cons y ys) = jsize y + 1 + jsizeL ys := rfl
      have h2 := jsize_pos x
      omega
    rw [parseItems_print y ys n d ('\n' :: indentC d) w₂ rest hfuel2 hokxs.1 hokxs.2
      (wsOnly_newline_indentC d) hw₂]
    rfl
  termination_by sizeOf x + sizeOf xs

/-- Parsing the printed members of a non-empty object (preceded by
whitespace and followed by whitespace and the closing brace) yields the
member list. -/
theorem parseMembers_print (k : List Char) (x : Json) (ms : JsonObj) (fuel d : ℕ)
    (w w₂ rest : List Char) (hfuel : jsize x + 1 + jsizeM ms ≤ fuel)
    (hokx : jsonOK x) (hokms : jsonOKM ms) (hw : WsOnly w) (hw₂ : WsOnly w₂) :
    parseMembers fuel (w ++ (printStr k ++ (':' :: ' ' :: (printVal d x ++
      (printMembersRest d ms ++ (w₂ ++ ('\x7d' :: rest))))))) =
      some (JsonObj.cons k x ms, rest) := by
  obtain ⟨n, rfl⟩ : ∃ n, fuel = n + 1 := by
    cases fuel with
    | zero => omega
    | succ n => exact ⟨n, rfl⟩
  have hskip : skipWs (w ++ (printStr k ++ (':' :: ' ' :: (printVal d x ++
      (printMembersRest d ms ++ (w₂ ++ ('\x7d' :: rest))))))) =
      '"' :: (escList k ++ ('"' :: (':' :: ' ' :: (printVal d x ++
        (printMembersRest d ms ++ (w₂ ++ ('\x7d' :: rest))))))) := by
    rw [skipWs_ws_append _ _ hw,
      show printStr k ++ (':' :: ' ' :: (printVal d x ++
          (printMembersRest d ms ++ (w₂ ++ ('\x7d' :: rest))))) =
        '"' :: (escList k ++ ('"' :: (':' :: ' ' :: (printVal d x ++
          (printMembersRest d ms ++ (w₂ ++ ('\x7d' :: rest))))))) by
        show (('"' :: escList k) ++ ['"']) ++ _ = _
        simp [List.append_assoc]]
    exact skipWs_cons_not _ _ (by decide)
  rw [parseMembers_step n _ _ _ hskip]
  rw [parseMembersKey_quote n _ k _ (parseStrBody_escList k _)]
  rw [parseMembersColon_step n k _ ':' (' ' :: (printVal d x ++
    (printMembersRest d ms ++ (w₂ ++ ('\x7d' :: rest)))))
    (skipWs_cons_not _ _ (by decide)), if_pos rfl]
  cases ms with
  | nil =>
    have hb : numBoundary (w₂ ++ ('\x7d' :: rest)) :=
      numBoundary_ws_append _ _ hw₂ (numBoundary_rbrace rest)
    have hPV : parseValue n (' ' :: (printVal d x ++ (printMembersRest d .nil ++
        (w₂ ++ ('\x7d' :: rest))))) = some (x, w₂ ++ ('\x7d' :: rest)) := by
      rw [show (' ' :: (printVal d x ++ (printMembersRest d JsonObj.nil ++
          (w₂ ++ ('\x7d' :: rest)))) : List Char) =
        [' '] ++ (printVal d x ++ (printMembersRest d JsonObj.nil ++
          (w₂ ++ ('\x7d' :: rest)))) from rfl]
      rw [parseValue_ws n [' '] _ (by intro c hc; simp at hc; subst hc; rfl),
        show printMembersRest d JsonObj.nil = ([] : List Char) from rfl, List.nil_append]
      exact parseValue_print x n d _ (by omega) hokx hb
    rw [parseMembersValue_step n k _ x _ hPV]
    rw [parseMembersAfter_step n k x _ '\x7d' rest
      (by rw [skipWs_ws_append _ _ hw₂]; exact skipWs_cons_not _ _ (by decide))]
    rw [if_neg (by decide), if_pos rfl]
  | cons k' y ms' =>
    have hshape : printMembersRest d (.cons k' y ms') ++ (w₂ ++ ('\x7d' :: rest)) =
        ',' :: (('\n' :: indentC d) ++ (printStr k' ++ (':' :: ' ' :: (printVal d y ++
          (printMembersRest d ms' ++ (w₂ ++ ('\x7d' :: rest))))))) := by
      show (',' :: '\n' :: (indentC d ++ (printStr k' ++ (':' :: ' ' ::
        (printVal d y ++ printMembersRest d ms'))))) ++ (w₂ ++ ('\x7d' :: rest)) = _
      simp [List.append_assoc]
    have hPV : parseValue n (' ' :: (printVal d x ++ (printMembersRest d (.cons k' y ms') ++
        (w₂ ++ ('\x7d' :: rest))))) =
        some (x, printMembersRest d (.cons k' y ms') ++ (w₂ ++ ('\x7d' :: rest))) := by
      rw [show (' ' :: (printVal d x ++ (printMembersRest d (JsonObj.cons k' y ms') ++
          (w₂ ++ ('\x7d' :: rest)))) : List Char) =
        [' '] ++ (printVal d x ++ (printMembersRest d (JsonObj.cons k' y ms') ++
          (w₂ ++ ('\x7d' :: rest)))) from rfl]
      rw [parseValue_ws n [' '] _ (by intro c hc; simp at hc; subst hc; rfl)]
      apply parseValue_print x n d _ (by omega) hokx
      rw [hshape]
      exact numBoundary_comma _
    rw [parseMembersValue_step n k _ x _ hPV]
    rw [parseMembersAfter_step n k x _ ',' (('\n' :: indentC d) ++ (printStr k' ++
      (':' :: ' ' :: (printVal d y ++ (printMembersRest d ms' ++
        (w₂ ++ ('\x7d' :: rest)))))))
      (by rw [hshape]; exact skipWs_cons_not _ _ (by decide))]
    rw [if_pos rfl]
    have hfuel2 : jsize y + 1 + jsizeM ms' ≤ n := by
      have h1 : jsizeM (JsonObj.cons k' y ms') = jsize y + 1 + jsizeM ms' := rfl
      have h2 := jsize_pos x
      omega
    rw [parseMembers_print k' y ms' n d ('\n' :: indentC d) w₂ rest hfuel2 hokms.1
      hokms.2 (wsOnly_newline_indentC d) hw₂]
    rfl
  termination_by sizeOf x + sizeOf ms
end

/-! ### Fuel sufficiency: the printed form is at least as long as `jsize` -/

mutual
theorem jsize_le_printVal (v : Json) (d : ℕ) :
    jsize v ≤ (printVal d v).length + 1 := by
  cases v with
  | null => simp [jsize]
  | bool b => cases b <;> simp [jsize]
  | num q => simp [jsize]
  | str s => simp [jsize]
  | arr l =>
    cases l with
    | nil => simp [jsize, jsizeL, printVal]
    | cons x xs =>
      have h1 := jsize_le_printVal x (d + 1)
      have h2 := jsizeL_le_printRest xs (d + 1)
      have h3 : jsize (.arr (.cons x xs)) = 1 + (jsize x + 1 + jsizeL xs) := rfl
      have h4 : (printVal d (.arr (.cons x xs))).length =
          2 + ((indentC (d + 1)).length + ((printVal (d + 1) x).length +
            ((printRest (d + 1) xs).length + (1 + ((indentC d).length + 1))))) := by
        show ('[' :: '\n' :: (indentC (d + 1) ++ (printVal (d + 1) x ++
          (printRest (d + 1) xs ++ ('\n' :: (indentC d ++ [']'])))))).length = _
        simp [List.length_append]
        omega
      omega
  | obj ms =>
    cases ms with
    | nil => simp [jsize, jsizeM, printVal]
    | cons k x tl =>
      have h1 := jsize_le_printVal x (d + 1)
      have h2 := jsizeM_le_printMembersRest tl (d + 1)
      have h3 : jsize (.obj (.cons k x tl)) = 1 + (jsize x + 1 + jsizeM tl) := rfl
      have h4 : (printVal d (.obj (.cons k x tl))).length =
          2 + ((indentC (d + 1)).length + ((printStr k).length + (2 +
            ((printVal (d + 1) x).length + ((printMembersRest (d + 1) tl).length +
              (1 + ((indentC d).length + 1))))))) := by
        show ('\x7b' :: '\n' :: (indentC (d + 1) ++ (printStr k ++ (':' :: ' ' ::
          (printVal (d + 1) x ++ (printMembersRest (d + 1) tl ++
            ('\n' :: (indentC d ++ ['\x7d'])))))))).length = _
        simp [List.length_append]
        omega
      omega
  termination_by sizeOf v

theorem jsizeL_le_printRest (xs : JsonList) (d : ℕ) :
    jsizeL xs ≤ (printRest d xs).length := by
  cases xs with
  | nil => simp [jsizeL, printRest]
  | cons y ys =>
    have h1 := jsize_le_printVal y d
    have h2 := jsizeL_le_printRest ys d
    have h3 : jsizeL (.cons y ys) = jsize y + 1 + jsizeL ys := rfl
    have h4 : (printRest d (.cons y ys)).length =
        2 + ((indentC d).length + ((printVal d y).length + (printRest d ys).length)) := by
      show (',' :: '\n' :: (indentC d ++ (printVal d y ++ printRest d ys))).length = _
      simp [List.length_append]
      omega
    omega
  termination_by sizeOf xs

theorem jsizeM_le_printMembersRest (ms : JsonObj) (d : ℕ) :
    jsizeM ms ≤ (printMembersRest d ms).length := by
  cases ms with
  | nil => simp [jsizeM, printMembersRest]
  | cons k y tl =>
    have h1 := jsize_le_printVal y d
    have h2 := jsizeM_le_printMembersRest tl d
    have h3 : jsizeM (.cons k y tl) = jsize y + 1 + jsizeM tl := rfl
    have h4 : (printMembersRest d (.cons k y tl)).length =
        2 + ((indentC d).length + ((printStr k).length + (2 + ((printVal d y).length +
          (printMembersRest d tl).length)))) := by
      show (',' :: '\n' :: (indentC d ++ (printStr k ++ (':' :: ' ' ::
        (printVal d y ++ printMembersRest d tl))))).length = _
      simp [List.length_append]
      omega
    omega
  termination_by sizeOf ms
end

/-- `json.dumps(v, indent=2, ensure_ascii=False)`. -/
def dumps (j : Json) : List Char := printVal 0 j

/-- `json.loads`: parse one value and require only whitespace after it
(fuel `length + 1` always suffices, see `jsize_le_printVal_length`). -/
def loads (cs : List Char) : Option Json :=
  match parseValue (cs.length + 1) cs with
  | some (v, r) => if skipWs r = [] then some v else none
  | none => none

/-- Round trip at the level of whole inputs: parsing the dump of any value
whose numbers are decimal-representable returns exactly that value. -/
theorem loads_dumps (v : Json) (hok : jsonOK v) : loads (dumps v) = some v := by
  have hfuel : jsize v ≤ (printVal 0 v).length + 1 := jsize_le_printVal v 0
  have hpv := parseValue_print v ((printVal 0 v).length + 1) 0 [] hfuel hok trivial
  rw [List.append_nil] at hpv
  rw [dumps]
  show (match parseValue ((printVal 0 v).length + 1) (printVal 0 v) with
    | some (v, r) => if skipWs r = [] then some v else none
    | none => none) = some v
  rw [hpv]
  rfl

/-- **C8.** For every JSON-representable store array (an array whose numbers
are decimal-representable, as every value a CPython float can hold is),
serializing with the store's pretty-printed, non-ASCII-preserving encoding
(`json.dumps(…, indent=2, ensure_ascii=False)`) and parsing the result back
(`json.loads`) yields an array equal by field values to the original:
save followed by load is the identity on store contents. -/
theorem C8_save_load_round_trip (l : JsonList) (hok : jsonOKL l) :
    loads (dumps (Json.arr l)) = some (Json.arr l) :=
  loads_dumps (Json.arr l) hok

/-- Witness for C8 on a concrete one-record store
`[{"id": "a", "pattern": "p", "confidence": 1}]`. -/
theorem C8_save_load_round_trip_witness :
    jsonOKL (JsonList.cons (Json.obj (JsonObj.cons "id".toList (Json.str "a".toList)
        (JsonObj.cons "pattern".toList (Json.str "p".toList)
          (JsonObj.cons "confidence".toList (Json.num 1) JsonObj.nil)))) JsonList.nil) ∧
    loads (dumps (Json.arr (JsonList.cons (Json.obj (JsonObj.cons "id".toList
        (Json.str "a".toList) (JsonObj.cons "pattern".toList (Json.str "p".toList)
          (JsonObj.cons "confidence".toList (Json.num 1) JsonObj.nil)))) JsonList.nil))) =
      some (Json.arr (JsonList.cons (Json.obj (JsonObj.cons "id".toList
        (Json.str "a".toList) (JsonObj.cons "pattern".toList (Json.str "p".toList)
          (JsonObj.cons "confidence".toList (Json.num 1) JsonObj.nil)))) JsonList.nil)) := by
  have h1 : numOK (1 : ℚ) := by
    rw [numOK, absQ, if_neg (by norm_num)]
    rw [show ((1:ℚ) - (((1:ℚ).floor : ℤ) : ℚ)) = 0 by
      rw [ratFloor_eq_intFloor]
      norm_num]
    rw [fracExpand.eq_def]
    simp
  have hok : jsonOKL (JsonList.cons (Json.obj (JsonObj.cons "id".toList
      (Json.str "a".toList) (JsonObj.cons "pattern".toList (Json.str "p".toList)
        (JsonObj.cons "confidence".toList (Json.num 1) JsonObj.nil)))) JsonList.nil) := by
    refine ⟨⟨trivial, trivial, h1, trivial⟩, trivial⟩
  exact ⟨hok, C8_save_load_round_trip _ hok⟩

end EaglesConfig
